import Mathlib

/-!
Verification development for the PEG.js 0.5 compiler core
(src/pegjs-0.5/lib/compiler.js).

The development shallowly embeds:
  * the abstract grammar tree (AGT) produced by the meta-grammar parser,
  * the semantic analyzer (`PEG.Compiler._checks` and `PEG.Compiler._passes`),
  * the runtime semantics of the parsers emitted by
    `PEG.Compiler._compileFunctions` (packrat cache, match-failure
    reporting, error-position computation),
  * the bootstrapped meta-grammar parser `PEG.grammarParser` itself,
    as the emitted parser of the meta-grammar AGT.

JavaScript strings are modelled as `List Char` / `String` (all characters
involved are in the basic multilingual plane, where Lean's scalar values
coincide with UTF-16 code units).  The JavaScript value `null` used as the
match-failure sentinel is modelled as `Option.none` at result positions.
Host-language action code is opaque text in the source; an action is
modelled as its source text together with a Lean function giving the
semantics of that specific fragment (argument list to result, with
`Except` capturing thrown host exceptions).
-/

namespace Peg

/-- Semantic values manipulated by an emitted parser: JavaScript strings,
numbers, booleans, `null`, arrays and plain objects (field order kept). -/
inductive Value where
  | str (s : String)
  | num (n : Nat)
  | bool (b : Bool)
  | nullv
  | list (elems : List Value)
  | obj (fields : List (String × Value))

/-- Runtime errors of a modelled JavaScript execution: fuel exhaustion
(models non-termination), a host TypeError (e.g. reading a property of
`undefined`), an exception thrown from action code, and a reference to an
emitted rule function that does not exist. -/
inductive RErr where
  | outOfFuel
  | typeError
  | jsError (msg : String)
  | missingRule (name : String)
deriving DecidableEq, Repr

/-- A host-language action / semantic-predicate fragment: its source text
(as stored in the AGT) plus the semantics of that fragment as a function
from the actual-argument list to a result. -/
structure Act where
  src : String
  fn : List Value → Except RErr Value

/-- One part of a character class: a single character or a `[low,high]`
character-code range. -/
inductive CPart where
  | single (c : Char)
  | range (lo hi : Char)
deriving DecidableEq, Repr

/-- AGT expression nodes, exactly the node kinds handled by
`PEG.Compiler._compileFunctions` (compiler.js lines 753-1088). -/
inductive Expr where
  | choice (alternatives : List Expr)
  | sequence (elements : List Expr)
  | labeled (label : String) (expression : Expr)
  | simple_and (expression : Expr)
  | simple_not (expression : Expr)
  | semantic_and (code : Act)
  | semantic_not (code : Act)
  | optional (expression : Expr)
  | zero_or_more (expression : Expr)
  | one_or_more (expression : Expr)
  | action (expression : Expr) (code : Act)
  | rule_ref (name : String)
  | literal (value : String)
  | any
  | charClass (inverted : Bool) (parts : List CPart) (rawText : String)

/-- A grammar rule: `{type: "rule", name, displayName, expression}`. -/
structure PRule where
  name : String
  displayName : Option String
  expression : Expr

/-- A grammar AGT: ordered rule map (association list, JavaScript object
insertion order), start-rule name, and the optional `initializer` code. -/
structure PGrammar where
  rules : List (String × PRule)
  startRule : String
  initCode : Option String := none

/-- A packrat cache entry `{nextPos, result}` (compiler.js lines 720-723). -/
structure CEntry where
  nextPos : Nat
  result : Option Value

/-- Mutable state of one `parse` call of an emitted parser: `pos`,
`cache`, `rightmostMatchFailuresPos`, `rightmostMatchFailuresExpected`
(compiler.js lines 492-495).  The cache is an association list; the
JavaScript assignment `cache[key] = e` is modelled by prepending, lookup
takes the first (most recent) binding. -/
structure PState where
  pos : Nat
  cache : List (String × CEntry)
  failPos : Nat
  failExp : List String

/-- The `matchFailed` function of an emitted parser (compiler.js lines
530-543), as a pure function from the current `pos`, the reported
`failure` string and the rightmost-failure state to the new
rightmost-failure state. -/
def matchFailedFn (pos : Nat) (failure : String) (failPos : Nat)
    (failExp : List String) : Nat × List String :=
  if pos < failPos then (failPos, failExp)
  else
    let p := if pos > failPos then (pos, ([] : List String)) else (failPos, failExp)
    if p.2.contains failure then p else (p.1, p.2 ++ [failure])

/-- Apply `matchFailed` to a parser state. -/
def recordFail (failure : String) (st : PState) : PState :=
  let p := matchFailedFn st.pos failure st.failPos st.failExp
  { st with failPos := p.1, failExp := p.2 }

/-- Quoting of one character inside `quoteString` (compiler.js lines
101-116).  The chain of global `replace` calls in the source is a
character-wise map because none of the later patterns matches a character
introduced by an earlier replacement. -/
def quoteChar (c : Char) : String :=
  if c = '\\' then "\\\\"
  else if c = '"' then "\\\""
  else if c = '\r' then "\\r"
  else if c = '\u2028' then "\\u2028"
  else if c = '\u2029' then "\\u2029"
  else if c = '\n' then "\\n"
  else String.singleton c

/-- `quoteString` of the emitted parser runtime (and
`PEG.StringUtils.quote`): surround with double quotes and escape. -/
def quoteString (s : String) : String :=
  "\"" ++ String.join (s.toList.map quoteChar) ++ "\""

/-- Quoting of one character for a regexp character class
(`PEG.RegExpUtils.quoteForClass`, compiler.js lines 129-141), again a
character-wise map. -/
def quoteForClassChar (c : Char) : String :=
  if c = '\\' then "\\\\"
  else if c = '\x00' then "\\0"
  else if c = '/' then "\\/"
  else if c = ']' then "\\]"
  else if c = '-' then "\\-"
  else if c = '\r' then "\\r"
  else if c = '\u2028' then "\\u2028"
  else if c = '\u2029' then "\\u2029"
  else if c = '\n' then "\\n"
  else String.singleton c

/-- `PEG.RegExpUtils.quoteForClass` on a whole string. -/
def quoteForClass (s : String) : String :=
  String.join (s.toList.map quoteForClassChar)

/-- `input.charAt(pos)`, `none` when past the end (where JavaScript
returns the empty string). -/
def charAt? (input : List Char) (pos : Nat) : Option Char :=
  input.get? pos

/-- `input.substr(pos, s.length) === s` — the test emitted for a literal
node (compiler.js line 1020). -/
def litTest (input : List Char) (pos : Nat) (s : String) : Bool :=
  (input.drop pos).take s.length == s.toList

/-- Membership of a character in one class part (character-code order,
as in the emitted regular expression). -/
def cpMatch (c : Char) : CPart → Bool
  | .single d => c == d
  | .range lo hi => decide (lo ≤ c) && decide (c ≤ hi)

/-- The test emitted for a class node: the regexp `/^[...]/` (or, for an
empty parts list, `/^[\S\s]/` when inverted and `/^(?!)/` otherwise,
compiler.js lines 1052-1070) applied to the single character `c`. -/
def classMatch (inverted : Bool) (parts : List CPart) (c : Char) : Bool :=
  if parts.isEmpty then inverted
  else (parts.any (cpMatch c)) != inverted

/-- JavaScript truthiness of a modelled value (used by the emitted code
for semantic predicates: `(function(){...})() ? '' : null`). -/
def truthy : Value → Bool
  | .str s => s != ""
  | .num n => n != 0
  | .bool b => b
  | .nullv => false
  | .list _ => true
  | .obj _ => true

/-- Whether an AGT node is a `labeled` node (used by the action-argument
splatting rule, compiler.js lines 972-990). -/
def isLabeledE : Expr → Bool
  | .labeled _ _ => true
  | _ => false

/-- Action-argument splatting (compiler.js lines 960-1006): when an
action wraps a sequence, one actual argument `result[i]` per `labeled`
element; when it wraps a single `labeled`, one argument; otherwise no
arguments. -/
def splatArgs : Expr → Value → List Value
  | .sequence els, .list vs =>
      (els.zip vs).filterMap (fun p => if isLabeledE p.1 then some p.2 else none)
  | .sequence _, _ => []
  | .labeled _ _, v => [v]
  | _, _ => []

/-- Type of the evaluator closure threaded through the per-construct
helpers: expression, `context.reportMatchFailures`, state. -/
abbrev Ev := Expr → Bool → PState → Except RErr (Option Value × PState)

/-- Emitted `choice` code (compiler.js lines 753-778): try the
alternatives in order, first non-null result wins; each failing
alternative leaves `pos` unchanged by the fragment contract. -/
def altsGo (ev : Ev) (rmf : Bool) : List Expr → PState → Except RErr (Option Value × PState)
  | [], st => .ok (none, st)
  | a :: rest, st =>
    match ev a rmf st with
    | .ok (none, st1) => altsGo ev rmf rest st1
    | r => r

/-- Emitted `sequence` element chain (compiler.js lines 780-822): run the
elements left to right, stopping at the first null result. -/
def seqGo (ev : Ev) (rmf : Bool) : List Expr → PState → Except RErr (Option (List Value) × PState)
  | [], st => .ok (some [], st)
  | e :: rest, st =>
    match ev e rmf st with
    | .error err => .error err
    | .ok (none, st1) => .ok (none, st1)
    | .ok (some v, st1) =>
      match seqGo ev rmf rest st1 with
      | .error err => .error err
      | .ok (none, st2) => .ok (none, st2)
      | .ok (some vs, st2) => .ok (some (v :: vs), st2)

/-- The `while (result !== null) { push; re-evaluate }` loop emitted for
repetition nodes (compiler.js lines 920-958); `n` bounds the number of
iterations (the JavaScript loop diverges when the sub-expression keeps
succeeding without progress). -/
def starGo (ev : Ev) (e : Expr) (rmf : Bool) : Nat → PState → List Value → Except RErr (Option Value × PState)
  | 0, _, _ => .error .outOfFuel
  | n + 1, st, acc =>
    match ev e rmf st with
    | .error err => .error err
    | .ok (none, st1) => .ok (some (.list acc), st1)
    | .ok (some v, st1) => starGo ev e rmf n st1 (acc ++ [v])

/-- The packrat cache key `name + '@' + pos` (compiler.js line 708). -/
def ruleKey (name : String) (pos : Nat) : String :=
  name ++ "@" ++ toString pos

/-- The emitted per-rule function `parse_name` (compiler.js lines
706-735): cache lookup, `reportMatchFailures` suppression and
display-name reporting for named rules, cache store, return. -/
def ruleGo (ev : Ev) (g : List (String × PRule)) (name : String) (rmf : Bool)
    (st : PState) : Except RErr (Option Value × PState) :=
  let key := ruleKey name st.pos
  match st.cache.lookup key with
  | some ce => .ok (ce.result, { st with pos := ce.nextPos })
  | none =>
    match g.lookup name with
    | none => .error (.missingRule name)
    | some r =>
      let bodyRmf := if r.displayName.isSome then false else rmf
      match ev r.expression bodyRmf st with
      | .error err => .error err
      | .ok (res, st1) =>
        let st2 :=
          match r.displayName with
          | some d => if rmf && res.isNone then recordFail d st1 else st1
          | none => st1
        .ok (res, { st2 with cache := (key, ⟨st2.pos, res⟩) :: st2.cache })

/-- Runtime semantics of the code emitted for one AGT node
(`PEG.Compiler._compileFunctions`, compiler.js lines 753-1088), with a
fuel budget to bound recursion through rule references and repetition
loops.  The fragment contract (lines 737-751): result `some v` with `pos`
advanced past the match, or result `none` with `pos` unchanged. -/
def matchE (g : List (String × PRule)) (input : List Char) : Nat → Ev
  | 0, _, _, _ => .error .outOfFuel
  | f + 1, e, rmf, st =>
    let ev : Ev := matchE g input f
    match e with
    | .choice alts => altsGo ev rmf alts st
    | .sequence els =>
      let saved := st.pos
      match seqGo ev rmf els st with
      | .error err => .error err
      | .ok (none, st1) => .ok (none, { st1 with pos := saved })
      | .ok (some vs, st1) => .ok (some (.list vs), st1)
    | .labeled _ e1 => ev e1 rmf st
    | .simple_and e1 =>
      let saved := st.pos
      match ev e1 false st with
      | .error err => .error err
      | .ok (some _, st1) => .ok (some (.str ""), { st1 with pos := saved })
      | .ok (none, st1) => .ok (none, st1)
    | .simple_not e1 =>
      let saved := st.pos
      match ev e1 false st with
      | .error err => .error err
      | .ok (none, st1) => .ok (some (.str ""), st1)
      | .ok (some _, st1) => .ok (none, { st1 with pos := saved })
    | .semantic_and a =>
      match a.fn [] with
      | .error err => .error err
      | .ok v => .ok (if truthy v then some (.str "") else none, st)
    | .semantic_not a =>
      match a.fn [] with
      | .error err => .error err
      | .ok v => .ok (if truthy v then none else some (.str ""), st)
    | .optional e1 =>
      match ev e1 rmf st with
      | .error err => .error err
      | .ok (some v, st1) => .ok (some v, st1)
      | .ok (none, st1) => .ok (some (.str ""), st1)
    | .zero_or_more e1 => starGo ev e1 rmf (f + 1) st []
    | .one_or_more e1 =>
      match ev e1 rmf st with
      | .error err => .error err
      | .ok (none, st1) => .ok (none, st1)
      | .ok (some v, st1) => starGo ev e1 rmf (f + 1) st1 [v]
    | .action e1 a =>
      match ev e1 rmf st with
      | .error err => .error err
      | .ok (none, st1) => .ok (none, st1)
      | .ok (some v, st1) =>
        match a.fn (splatArgs e1 v) with
        | .error err => .error err
        | .ok r => .ok (some r, st1)
    | .rule_ref n => ruleGo ev g n rmf st
    | .literal s =>
      if litTest input st.pos s then
        .ok (some (.str s), { st with pos := st.pos + s.length })
      else
        .ok (none, if rmf then recordFail (quoteString s) st else st)
    | .any =>
      match charAt? input st.pos with
      | some c => .ok (some (.str (String.singleton c)), { st with pos := st.pos + 1 })
      | none => .ok (none, if rmf then recordFail "any character" st else st)
    | .charClass inv parts raw =>
      match charAt? input st.pos with
      | some c =>
        if classMatch inv parts c then
          .ok (some (.str (String.singleton c)), { st with pos := st.pos + 1 })
        else .ok (none, if rmf then recordFail raw st else st)
      | none => .ok (none, if rmf then recordFail raw st else st)

/-- One step of the `computeErrorPosition` walk (compiler.js lines
583-597): given `(line, column, seenCR)` and `input.charAt(i)` (empty
string, i.e. `none`, past the end, which falls into the final `else`),
produce the next state. -/
def cepStep (line col : Nat) (cr : Bool) (c : Option Char) : Nat × Nat × Bool :=
  match c with
  | some ch =>
    if ch = '\n' then (if cr then line else line + 1, 1, false)
    else if ch = '\r' ∨ ch = '\u2028' ∨ ch = '\u2029' then (line + 1, 1, true)
    else (line, col + 1, false)
  | none => (line, col + 1, false)

/-- The loop of `computeErrorPosition`: `left` iterations remain, `i` is
the current index. -/
def cepGo (input : List Char) : Nat → Nat → Nat → Nat → Bool → Nat × Nat
  | 0, _, line, col, _ => (line, col)
  | left + 1, i, line, col, cr =>
    let s := cepStep line col cr (charAt? input i)
    cepGo input left (i + 1) s.1 s.2.1 s.2.2

/-- `computeErrorPosition` (compiler.js lines 571-600): walk the input
from offset 0 up to (exclusive) `stopPos` starting from line 1, column 1,
`seenCR = false`; returns `(line, column)`. -/
def computeErrorPosition (input : List Char) (stopPos : Nat) : Nat × Nat :=
  cepGo input stopPos 0 1 1 false

/-- Insertion of a string into a lexicographically sorted list (helper
for modelling JavaScript's default `Array.sort` on strings). -/
def insStr (x : String) : List String → List String
  | [] => [x]
  | y :: rest => if x ≤ y then x :: y :: rest else y :: insStr x rest

/-- Insertion sort on strings, modelling `failuresExpected.sort()`. -/
def sortStrs : List String → List String
  | [] => []
  | x :: rest => insStr x (sortStrs rest)

/-- `buildExpected` (compiler.js lines 548-560). -/
def buildExpected (l : List String) : String :=
  match l with
  | [] => "end of input"
  | [x] => x
  | _ =>
    let s := sortStrs l
    String.intercalate ", " s.dropLast ++ " or " ++ s.getLastD ""

/-- `buildErrorMessage` (compiler.js lines 547-569). -/
def buildErrorMessage (input : List Char) (pos failPos : Nat)
    (failExp : List String) : String :=
  let expected := buildExpected failExp
  let actualPos := max pos failPos
  let actual :=
    match charAt? input actualPos with
    | some c => quoteString (String.singleton c)
    | none => "end of input"
  "Expected " ++ expected ++ " but " ++ actual ++ " found."

/-- Result of a `parse` call of an emitted parser: the start rule's
semantic value, or a thrown `SyntaxError {message, line, column}`. -/
inductive Outcome where
  | success (v : Value)
  | failure (msg : String) (line col : Nat)

/-- The emitted `parse` function (compiler.js lines 491-640): fresh
state, call `parse_<startRule>({reportMatchFailures: true})`, and throw a
`SyntaxError` when the result is null or the input was not consumed
entirely. -/
def parseInput (G : PGrammar) (fuel : Nat) (input : List Char) : Except RErr Outcome :=
  let st0 : PState := ⟨0, [], 0, []⟩
  match ruleGo (matchE G.rules input fuel) G.rules G.startRule true st0 with
  | .error err => .error err
  | .ok (res, st) =>
    match res with
    | some v =>
      if st.pos = input.length then .ok (.success v)
      else
        let ep := computeErrorPosition input st.failPos
        .ok (.failure (buildErrorMessage input st.pos st.failPos st.failExp) ep.1 ep.2)
    | none =>
      let ep := computeErrorPosition input st.failPos
      .ok (.failure (buildErrorMessage input st.pos st.failPos st.failExp) ep.1 ep.2)

/-! ## Semantic analyzer (compiler.js lines 257-467) -/

/-- Error raised by a semantic check: `PEG.GrammarError` with its message,
fuel exhaustion (models non-terminating recursion of the JavaScript
check), or a host-level crash (reading a property of `undefined`). -/
inductive CheckErr where
  | grammarError (msg : String)
  | fuelOut
  | hostError
deriving DecidableEq, Repr

/-- Check 1 — reference resolution (compiler.js lines 265-315): visit
every node; for a `rule_ref`, its name must be a key of `ast.rules`.
Fuel bounds the traversal depth. -/
def c1E (g : List (String × PRule)) : Nat → Expr → Except CheckErr Unit
  | 0, _ => .error .fuelOut
  | f + 1, e =>
    match e with
    | .choice alts => alts.foldlM (fun _ a => c1E g f a) ()
    | .sequence els => els.foldlM (fun _ a => c1E g f a) ()
    | .labeled _ e1 => c1E g f e1
    | .simple_and e1 => c1E g f e1
    | .simple_not e1 => c1E g f e1
    | .semantic_and _ => .ok ()
    | .semantic_not _ => .ok ()
    | .optional e1 => c1E g f e1
    | .zero_or_more e1 => c1E g f e1
    | .one_or_more e1 => c1E g f e1
    | .action e1 _ => c1E g f e1
    | .rule_ref n =>
      if (g.lookup n).isSome then .ok ()
      else .error (.grammarError ("Referenced rule \"" ++ n ++ "\" does not exist."))
    | .literal _ => .ok ()
    | .any => .ok ()
    | .charClass _ _ _ => .ok ()

/-- The whole of check 1: the grammar node visits every rule, a rule
visits its expression. -/
def check1 (G : PGrammar) (fuel : Nat) : Except CheckErr Unit :=
  G.rules.foldlM (fun _ p => c1E G.rules fuel p.2.expression) ()

/-- Check 2 — left-recursion detection (compiler.js lines 317-382),
keyed by the stack `appliedRules` of rule names currently being entered:
`choice` descends into all alternatives, `sequence` only into its first
element, wrapper nodes into their sub-expression, terminals and semantic
predicates into nothing; a `rule_ref` whose name is already on the stack
raises the left-recursion `GrammarError`, otherwise the referenced rule
is entered (appending its `name` to the stack, the `rule` case of the
source).  A `rule_ref` to a missing rule crashes in JavaScript
(`.hostError` here); check 1 runs first and rules that split out. -/
def c2E (g : List (String × PRule)) : Nat → Expr → List String → Except CheckErr Unit
  | 0, _, _ => .error .fuelOut
  | f + 1, e, applied =>
    match e with
    | .choice alts => alts.foldlM (fun _ a => c2E g f a applied) ()
    | .sequence els =>
      match els with
      | [] => .ok ()
      | e0 :: _ => c2E g f e0 applied
    | .labeled _ e1 => c2E g f e1 applied
    | .simple_and e1 => c2E g f e1 applied
    | .simple_not e1 => c2E g f e1 applied
    | .semantic_and _ => .ok ()
    | .semantic_not _ => .ok ()
    | .optional e1 => c2E g f e1 applied
    | .zero_or_more e1 => c2E g f e1 applied
    | .one_or_more e1 => c2E g f e1 applied
    | .action e1 _ => c2E g f e1 applied
    | .rule_ref n =>
      if applied.contains n then
        .error (.grammarError ("Left recursion detected for rule \"" ++ n ++ "\"."))
      else
        match g.lookup n with
        | some r => c2E g f r.expression (applied ++ [r.name])
        | none => .error .hostError
    | .literal _ => .ok ()
    | .any => .ok ()
    | .charClass _ _ _ => .ok ()

/-- The whole of check 2: each rule is checked starting from the empty
stack; entering the rule pushes its name (`appliedRules.concat(name)`). -/
def check2 (G : PGrammar) (fuel : Nat) : Except CheckErr Unit :=
  G.rules.foldlM (fun _ p => c2E G.rules fuel p.2.expression [p.2.name]) ()

mutual

/-- All `rule_ref` names occurring anywhere in an expression. -/
def refsE : Expr → List String
  | .choice alts => refsL alts
  | .sequence els => refsL els
  | .labeled _ e1 => refsE e1
  | .simple_and e1 => refsE e1
  | .simple_not e1 => refsE e1
  | .semantic_and _ => []
  | .semantic_not _ => []
  | .optional e1 => refsE e1
  | .zero_or_more e1 => refsE e1
  | .one_or_more e1 => refsE e1
  | .action e1 _ => refsE e1
  | .rule_ref n => [n]
  | .literal _ => []
  | .any => []
  | .charClass _ _ _ => []

/-- All `rule_ref` names occurring in a list of expressions. -/
def refsL : List Expr → List String
  | [] => []
  | e :: rest => refsE e ++ refsL rest

end

mutual

/-- `replaceRuleRefs` on one expression (compiler.js lines 400-453):
rename every `rule_ref` named `a` to `b`, leaving everything else (and
every other node attribute) in place. -/
def replaceE (a b : String) : Expr → Expr
  | .choice alts => .choice (replaceL a b alts)
  | .sequence els => .sequence (replaceL a b els)
  | .labeled l e1 => .labeled l (replaceE a b e1)
  | .simple_and e1 => .simple_and (replaceE a b e1)
  | .simple_not e1 => .simple_not (replaceE a b e1)
  | .semantic_and c => .semantic_and c
  | .semantic_not c => .semantic_not c
  | .optional e1 => .optional (replaceE a b e1)
  | .zero_or_more e1 => .zero_or_more (replaceE a b e1)
  | .one_or_more e1 => .one_or_more (replaceE a b e1)
  | .action e1 c => .action (replaceE a b e1) c
  | .rule_ref n => .rule_ref (if n = a then b else n)
  | .literal v => .literal v
  | .any => .any
  | .charClass i p r => .charClass i p r

/-- `replaceRuleRefs` on a list of sub-expressions. -/
def replaceL (a b : String) : List Expr → List Expr
  | [] => []
  | e :: rest => replaceE a b e :: replaceL a b rest

end

/-- The name under a `rule_ref` expression, `none` for any other node. -/
def exprRefName : Expr → Option String
  | .rule_ref n => some n
  | _ => none

/-- `isProxyRule` (compiler.js lines 396-398): a rule whose expression is
a single `rule_ref`. -/
def isProxyR (r : PRule) : Bool :=
  (exprRefName r.expression).isSome

/-- `replaceRuleRefs` applied to one rule (the `rule` visitor descends
into the expression). -/
def replaceRule (a b : String) (r : PRule) : PRule :=
  { r with expression := replaceE a b r.expression }

/-- `replaceRuleRefs` applied to every rule of the grammar. -/
def replaceRules (a b : String) (rules : List (String × PRule)) : List (String × PRule) :=
  rules.map (fun p => (p.1, replaceRule a b p.2))

/-- One iteration of the proxy-elimination loop (compiler.js lines
455-463) for the key `n`: when `ast.rules[n]` exists and is a proxy,
run `replaceRuleRefs(ast, ast.rules[n].name, ast.rules[n].expression.name)`,
then (as the source does) re-read `ast.rules[n].expression.name` *after*
the replacement to update the start rule, and finally delete the key. -/
def passStep (G : PGrammar) (n : String) : PGrammar :=
  match G.rules.lookup n with
  | none => G
  | some r =>
    match exprRefName r.expression with
    | none => G
    | some q =>
      let a := r.name
      let rules1 := replaceRules a q G.rules
      let start1 :=
        if n = G.startRule then
          match rules1.lookup n with
          | some r1 =>
            match exprRefName r1.expression with
            | some q1 => q1
            | none => G.startRule
          | none => G.startRule
        else G.startRule
      { G with rules := rules1.filter (fun p => p.1 != n), startRule := start1 }

/-- The proxy-elimination pass: the `for (var name in ast.rules)` loop
processed in the iteration order `ord` (one entry per original key). -/
def runPass (G : PGrammar) (ord : List String) : PGrammar :=
  ord.foldl passStep G

/-! ## Concrete grammars from the spec's scenario table -/

/-- Semantics of the action fragment `return arguments[0].length` of
scenario 1: reading `.length` of `arguments[0]` throws a TypeError when
no argument was passed (`arguments[0]` is `undefined`). -/
def actC1 : Act :=
  ⟨" return arguments[0].length ", fun args =>
    match args.get? 0 with
    | none => .error .typeError
    | some (.str s) => .ok (.num s.length)
    | some (.list l) => .ok (.num l.length)
    | some .nullv => .error .typeError
    | some _ => .ok .nullv⟩

/-- AGT of `start = "a"* { return arguments[0].length }` as produced by
the meta-grammar parser: the trailing action wraps the single sequence
element, the bare `zero_or_more`. -/
def gC1 : PGrammar :=
  ⟨[("start", ⟨"start", none, .action (.zero_or_more (.literal "a")) actC1⟩)], "start", none⟩

/-- AGT of `start = &"a" .` (scenario 4): a two-element sequence of a
positive lookahead and `any`. -/
def gC6 : PGrammar :=
  ⟨[("start", ⟨"start", none, .sequence [.simple_and (.literal "a"), .any]⟩)], "start", none⟩

/-- AGT of `s = s "a" / "a"` (scenario 6). -/
def gLR : PGrammar :=
  ⟨[("s", ⟨"s", none, .choice [.sequence [.rule_ref "s", .literal "a"], .literal "a"]⟩)], "s", none⟩

/-- AGT of `s = x; x = "a"` (scenario 7): `s` is a proxy rule. -/
def gProxy : PGrammar :=
  ⟨[("s", ⟨"s", none, .rule_ref "x"⟩), ("x", ⟨"x", none, .literal "a"⟩)], "s", none⟩

/-! ## The bootstrapped meta-grammar parser (compiler.js lines 1123-4680)

`PEG.grammarParser` is the emitted parser of the meta-grammar AGT; its
source in compiler.js is exactly the output of the synthesizer on that
AGT.  The AGT below is transcribed rule by rule from the generated
`parse_*` functions; the semantics of each embedded action fragment is
given as a Lean function on the modelled values. -/

/-- JavaScript `s.substr(start, len)` for non-negative arguments. -/
def jsSubstr (s : String) (start len : Nat) : String :=
  String.mk ((s.toList.drop start).take len)

/-- A modelled value must be a string (reading it otherwise is a host
type confusion, which never happens for the meta-grammar actions). -/
def vStr : Value → Except RErr String
  | .str s => .ok s
  | _ => .error .typeError

/-- A modelled value must be an array. -/
def vList : Value → Except RErr (List Value)
  | .list l => .ok l
  | _ => .error .typeError

/-- Property access `v.f` on a modelled object. -/
def vField (v : Value) (f : String) : Except RErr Value :=
  match v with
  | .obj fields =>
    match fields.lookup f with
    | some x => .ok x
    | none => .error .typeError
  | _ => .error .typeError

/-- `parts.join("")` on an array of strings. -/
def vJoin (vs : List Value) : Except RErr String := do
  let ss ← vs.mapM vStr
  pure (String.join ss)

/-- `arguments[i]` where the action expects the argument to exist. -/
def vIdx (vs : List Value) (i : Nat) : Except RErr Value :=
  match vs.get? i with
  | some v => .ok v
  | none => .error .typeError

/-- The single-quote character, by code (39). -/
def squote : Char := Char.ofNat 39

/-- The single-quote character as a one-character string. -/
def sq1 : String := String.singleton squote

/-- Numeric value of one hexadecimal digit. -/
def hexDigitVal (c : Char) : Nat :=
  if '0' ≤ c ∧ c ≤ '9' then c.toNat - 48
  else if 'a' ≤ c ∧ c ≤ 'f' then c.toNat - 87
  else if 'A' ≤ c ∧ c ≤ 'F' then c.toNat - 55
  else 0

/-- `parseInt("0x" + s)` for a string of hex digits. -/
def hexStrVal (s : String) : Nat :=
  s.toList.foldl (fun acc c => acc * 16 + hexDigitVal c) 0

/-- `char_.replace("b","\b")...replace("v","\x0B")` of the
`simpleEscapeSequence` action, on the single-character strings it is
applied to. -/
def escMap (s : String) : String :=
  if s = "b" then "\x08"
  else if s = "f" then "\x0C"
  else if s = "n" then "\n"
  else if s = "r" then "\r"
  else if s = "t" then "\t"
  else if s = "v" then "\x0B"
  else s

/-- Action of the `grammar` rule (compiler.js lines 1224-1235): convert
the rule list to a name-keyed map, `initializer !== "" ? ... : null`,
start rule = name of the first rule. -/
def mgA_grammar : Act :=
  ⟨"var rulesConverted = ...; return \x7btype: \"grammar\", initializer: initializer !== \"\" ? initializer : null, rules: rulesConverted, startRule: rules[0].name\x7d", fun args => do
    let initV ← vIdx args 0
    let rulesV ← vIdx args 1 >>= vList
    let entries ← rulesV.mapM (fun r => do
      let n ← vField r "name" >>= vStr
      pure (n, r))
    let startName ←
      match rulesV with
      | r0 :: _ => vField r0 "name" >>= vStr
      | [] => .error .typeError
    pure (.obj [("type", .str "grammar"),
                ("initializer", match initV with | .str "" => .nullv | _ => initV),
                ("rules", .obj entries),
                ("startRule", .str startName)])⟩

/-- Action of the `initializer` rule (lines 1271-1278). -/
def mgA_init : Act :=
  ⟨"return \x7btype: \"initializer\", code: code\x7d", fun args => do
    let code ← vIdx args 0
    pure (.obj [("type", .str "initializer"), ("code", code)])⟩

/-- Action of the `rule` rule (lines 1349-1358). -/
def mgA_rule : Act :=
  ⟨"return \x7btype: \"rule\", name: name, displayName: displayName !== \"\" ? displayName : null, expression: expression\x7d", fun args => do
    let name ← vIdx args 0
    let disp ← vIdx args 1
    let expr ← vIdx args 2
    pure (.obj [("type", .str "rule"),
                ("name", name),
                ("displayName", match disp with | .str "" => .nullv | _ => disp),
                ("expression", expr)])⟩

/-- Action of the `choice` rule (lines 1423-1438): collapse a single
alternative to itself. -/
def mgA_choice : Act :=
  ⟨"if (tail.length > 0) return \x7btype: \"choice\", alternatives: [head].concat(map(tail, e => e[1]))\x7d; else return head", fun args => do
    let head ← vIdx args 0
    let tail ← vIdx args 1 >>= vList
    if tail.length > 0 then do
      let alts ← tail.mapM (fun el => do
        let l ← vList el
        vIdx l 1)
      pure (.obj [("type", .str "choice"), ("alternatives", .list (head :: alts))])
    else pure head⟩

/-- Shared node construction of the two `sequence` actions (lines
1477-1491 and 1501-1510): a sequence node unless there is exactly one
element. -/
def mgSeqNode (els : List Value) : Value :=
  match els with
  | [e] => e
  | _ => .obj [("type", .str "sequence"), ("elements", .list els)]

/-- Action of `sequence`'s first alternative `labeled* action` (lines
1477-1491). -/
def mgA_seqAct : Act :=
  ⟨"var expression = elements.length != 1 ? \x7btype: \"sequence\", elements: elements\x7d : elements[0]; return \x7btype: \"action\", expression: expression, code: code\x7d", fun args => do
    let els ← vIdx args 0 >>= vList
    let code ← vIdx args 1
    pure (.obj [("type", .str "action"),
                ("expression", mgSeqNode els),
                ("code", code)])⟩

/-- Action of `sequence`'s second alternative `labeled*` (lines
1501-1510). -/
def mgA_seq : Act :=
  ⟨"return elements.length != 1 ? \x7btype: \"sequence\", elements: elements\x7d : elements[0]", fun args => do
    let els ← vIdx args 0 >>= vList
    pure (mgSeqNode els)⟩

/-- Action of `labeled` (lines 1556-1564). -/
def mgA_labeled : Act :=
  ⟨"return \x7btype: \"labeled\", label: label, expression: expression\x7d", fun args => do
    let l ← vIdx args 0
    let e ← vIdx args 1
    pure (.obj [("type", .str "labeled"), ("label", l), ("expression", e)])⟩

/-- Node-building action with a single `code` argument. -/
def mgA_codeNode (kind : String) : Act :=
  ⟨"return \x7btype: " ++ quoteString kind ++ ", code: code\x7d", fun args => do
    let c ← vIdx args 0
    pure (.obj [("type", .str kind), ("code", c)])⟩

/-- Node-building action with a single `expression` argument. -/
def mgA_exprNode (kind : String) : Act :=
  ⟨"return \x7btype: " ++ quoteString kind ++ ", expression: expression\x7d", fun args => do
    let e ← vIdx args 0
    pure (.obj [("type", .str kind), ("expression", e)])⟩

/-- Action of `primary`'s rule-reference alternative (lines 1881-1888). -/
def mgA_ruleRefNode : Act :=
  ⟨"return \x7btype: \"rule_ref\", name: name\x7d", fun args => do
    let n ← vIdx args 0
    pure (.obj [("type", .str "rule_ref"), ("name", n)])⟩

/-- Action of `primary`'s literal alternative (lines 1893-1900). -/
def mgA_litNode : Act :=
  ⟨"return \x7btype: \"literal\", value: value\x7d", fun args => do
    let v ← vIdx args 0
    pure (.obj [("type", .str "literal"), ("value", v)])⟩

/-- Action of `primary`'s dot alternative (line 1906). -/
def mgA_anyNode : Act :=
  ⟨"return \x7btype: \"any\"\x7d", fun _ =>
    pure (.obj [("type", .str "any")])⟩

/-- Action returning its single argument unchanged (used by several
rules: parenthesized expressions, `literal`, the simple characters, the
eol escape). -/
def mgA_arg0 : Act :=
  ⟨"return arg", fun args => vIdx args 0⟩

/-- Action of the `action` rule (line 1982): strip the outer braces. -/
def mgA_actionRule : Act :=
  ⟨"return braced.substr(1, braced.length - 2)", fun args => do
    let b ← vIdx args 0 >>= vStr
    pure (.str (jsSubstr b 1 (b.length - 2)))⟩

/-- Action of `braced` (lines 2066-2069). -/
def mgA_braced : Act :=
  ⟨"return \"\x7b\" + parts.join(\"\") + \"\x7d\"", fun args => do
    let parts ← vIdx args 0 >>= vList
    let j ← vJoin parts
    pure (.str ("\x7b" ++ j ++ "\x7d"))⟩

/-- Action joining its single array-of-strings argument (`chars.join("")`). -/
def mgA_join : Act :=
  ⟨"return chars.join(\"\")", fun args => do
    let cs ← vIdx args 0 >>= vList
    let j ← vJoin cs
    pure (.str j)⟩

/-- The constant-string actions of the token rules (`return \"=\";` and
its siblings). -/
def mgA_const (s : String) : Act :=
  ⟨"return " ++ quoteString s ++ ";", fun _ => pure (.str s)⟩

/-- Action of `identifier` (lines 2807-2810). -/
def mgA_ident : Act :=
  ⟨"return head + tail.join(\"\")", fun args => do
    let h ← vIdx args 0 >>= vStr
    let t ← vIdx args 1 >>= vList
    let j ← vJoin t
    pure (.str (h ++ j))⟩

/-- Action of `class` (lines 3361-3380): collect the part data, rebuild
the raw text, `inverted === "^"`. -/
def mgA_class : Act :=
  ⟨"partsConverted = map(parts, p => p.data); rawText = \"[\" + inverted + map(parts, p => p.rawText).join(\"\") + \"]\"; return \x7btype: \"class\", inverted: inverted === \"^\", parts: partsConverted, rawText: rawText\x7d", fun args => do
    let inv ← vIdx args 0 >>= vStr
    let parts ← vIdx args 1 >>= vList
    let datas ← parts.mapM (fun p => vField p "data")
    let raws ← parts.mapM (fun p => vField p "rawText" >>= vStr)
    pure (.obj [("type", .str "class"),
                ("inverted", .bool (inv == "^")),
                ("parts", .list datas),
                ("rawText", .str ("[" ++ inv ++ String.join raws ++ "]"))])⟩

/-- Action of `classCharacterRange` (lines 3431-3444): throw a
`SyntaxError` when the range is inverted (`charCodeAt` comparison). -/
def mgA_ccRange : Act :=
  ⟨"if (begin.data.charCodeAt(0) > end.data.charCodeAt(0)) throw new this.SyntaxError(\"Invalid character range: \" + begin.rawText + \"-\" + end.rawText + \".\"); return \x7bdata: [begin.data, end.data], rawText: begin.rawText + \"-\" + end.rawText\x7d", fun args => do
    let b ← vIdx args 0
    let e ← vIdx args 1
    let bd ← vField b "data" >>= vStr
    let ed ← vField e "data" >>= vStr
    let br ← vField b "rawText" >>= vStr
    let er ← vField e "rawText" >>= vStr
    let bad :=
      match bd.toList, ed.toList with
      | bc :: _, ec :: _ => decide (ec < bc)
      | _, _ => false
    if bad then
      .error (.jsError ("Invalid character range: " ++ br ++ "-" ++ er ++ "."))
    else
      pure (.obj [("data", .list [.str bd, .str ed]),
                  ("rawText", .str (br ++ "-" ++ er))])⟩

/-- Action of `classCharacter` (lines 3466-3473). -/
def mgA_classChar : Act :=
  ⟨"return \x7bdata: char_, rawText: quoteForClass(char_)\x7d", fun args => do
    let ch ← vIdx args 0 >>= vStr
    pure (.obj [("data", .str ch), ("rawText", .str (quoteForClass ch))])⟩

/-- Action of `simpleEscapeSequence` (lines 3711-3721). -/
def mgA_simpleEsc : Act :=
  ⟨"return char_.replace(\"b\",\"\\b\").replace(\"f\",\"\\f\").replace(\"n\",\"\\n\").replace(\"r\",\"\\r\").replace(\"t\",\"\\t\").replace(\"v\",\"\\x0B\")", fun args => do
    let ch ← vIdx args 0 >>= vStr
    pure (.str (escMap ch))⟩

/-- Action of `zeroEscapeSequence` (line 3774). -/
def mgA_zeroEsc : Act :=
  ⟨"return \"\\0\";", fun _ => pure (.str "\x00")⟩

/-- Action of `hexEscapeSequence` (lines 3823-3827). -/
def mgA_hexEsc : Act :=
  ⟨"return String.fromCharCode(parseInt(\"0x\" + h1 + h2))", fun args => do
    let h1 ← vIdx args 0 >>= vStr
    let h2 ← vIdx args 1 >>= vStr
    pure (.str (String.singleton (Char.ofNat (hexStrVal (h1 ++ h2)))))⟩

/-- Action of `unicodeEscapeSequence` (lines 3887-3891).  (Lean `Char`
cannot represent lone UTF-16 surrogates; `Char.ofNat` is the BMP-scalar
model of `String.fromCharCode`.) -/
def mgA_uniEsc : Act :=
  ⟨"return String.fromCharCode(parseInt(\"0x\" + h1 + h2 + h3 + h4))", fun args => do
    let h1 ← vIdx args 0 >>= vStr
    let h2 ← vIdx args 1 >>= vStr
    let h3 ← vIdx args 2 >>= vStr
    let h4 ← vIdx args 3 >>= vStr
    pure (.str (String.singleton (Char.ofNat (hexStrVal (h1 ++ h2 ++ h3 ++ h4)))))⟩

/-- The meta-grammar AGT, rule by rule in the order of the generated
`parse_*` functions (compiler.js lines 1185-4567). -/
def metaRules : List (String × PRule) :=
  [ ("grammar", ⟨"grammar", none,
      .action (.sequence
        [.rule_ref "__",
         .labeled "initializer" (.optional (.rule_ref "initializer")),
         .labeled "rules" (.one_or_more (.rule_ref "rule"))]) mgA_grammar⟩),
    ("initializer", ⟨"initializer", none,
      .action (.sequence
        [.labeled "code" (.rule_ref "action"),
         .optional (.rule_ref "semicolon")]) mgA_init⟩),
    ("rule", ⟨"rule", none,
      .action (.sequence
        [.labeled "name" (.rule_ref "identifier"),
         .labeled "displayName" (.choice [.rule_ref "literal", .literal ""]),
         .rule_ref "equals",
         .labeled "expression" (.rule_ref "choice"),
         .optional (.rule_ref "semicolon")]) mgA_rule⟩),
    ("choice", ⟨"choice", none,
      .action (.sequence
        [.labeled "head" (.rule_ref "sequence"),
         .labeled "tail" (.zero_or_more (.sequence [.rule_ref "slash", .rule_ref "sequence"]))]) mgA_choice⟩),
    ("sequence", ⟨"sequence", none,
      .choice
        [.action (.sequence
           [.labeled "elements" (.zero_or_more (.rule_ref "labeled")),
            .labeled "code" (.rule_ref "action")]) mgA_seqAct,
         .action (.labeled "elements" (.zero_or_more (.rule_ref "labeled"))) mgA_seq]⟩),
    ("labeled", ⟨"labeled", none,
      .choice
        [.action (.sequence
           [.labeled "label" (.rule_ref "identifier"),
            .rule_ref "colon",
            .labeled "expression" (.rule_ref "prefixed")]) mgA_labeled,
         .rule_ref "prefixed"]⟩),
    ("prefixed", ⟨"prefixed", none,
      .choice
        [.action (.sequence [.rule_ref "and", .labeled "code" (.rule_ref "action")])
           (mgA_codeNode "semantic_and"),
         .action (.sequence [.rule_ref "and", .labeled "expression" (.rule_ref "suffixed")])
           (mgA_exprNode "simple_and"),
         .action (.sequence [.rule_ref "not", .labeled "code" (.rule_ref "action")])
           (mgA_codeNode "semantic_not"),
         .action (.sequence [.rule_ref "not", .labeled "expression" (.rule_ref "suffixed")])
           (mgA_exprNode "simple_not"),
         .rule_ref "suffixed"]⟩),
    ("suffixed", ⟨"suffixed", none,
      .choice
        [.action (.sequence [.labeled "expression" (.rule_ref "primary"), .rule_ref "question"])
           (mgA_exprNode "optional"),
         .action (.sequence [.labeled "expression" (.rule_ref "primary"), .rule_ref "star"])
           (mgA_exprNode "zero_or_more"),
         .action (.sequence [.labeled "expression" (.rule_ref "primary"), .rule_ref "plus"])
           (mgA_exprNode "one_or_more"),
         .rule_ref "primary"]⟩),
    ("primary", ⟨"primary", none,
      .choice
        [.action (.sequence
           [.labeled "name" (.rule_ref "identifier"),
            .simple_not (.sequence
              [.choice [.rule_ref "literal", .literal ""],
               .rule_ref "equals"])]) mgA_ruleRefNode,
         .action (.labeled "value" (.rule_ref "literal")) mgA_litNode,
         .action (.rule_ref "dot") mgA_anyNode,
         .rule_ref "class",
         .action (.sequence
           [.rule_ref "lparen",
            .labeled "expression" (.rule_ref "choice"),
            .rule_ref "rparen"]) mgA_arg0]⟩),
    ("action", ⟨"action", some "action",
      .action (.sequence [.labeled "braced" (.rule_ref "braced"), .rule_ref "__"]) mgA_actionRule⟩),
    ("braced", ⟨"braced", none,
      .action (.sequence
        [.literal "\x7b",
         .labeled "parts" (.zero_or_more (.choice [.rule_ref "braced", .rule_ref "nonBraceCharacter"])),
         .literal "\x7d"]) mgA_braced⟩),
    ("nonBraceCharacters", ⟨"nonBraceCharacters", none,
      .action (.labeled "chars" (.one_or_more (.rule_ref "nonBraceCharacter"))) mgA_join⟩),
    ("nonBraceCharacter", ⟨"nonBraceCharacter", none,
      .charClass true [.single '\x7b', .single '\x7d'] "[^\x7b\x7d]"⟩),
    ("equals", ⟨"equals", none,
      .action (.sequence [.literal "=", .rule_ref "__"]) (mgA_const "=")⟩),
    ("colon", ⟨"colon", none,
      .action (.sequence [.literal ":", .rule_ref "__"]) (mgA_const ":")⟩),
    ("semicolon", ⟨"semicolon", none,
      .action (.sequence [.literal ";", .rule_ref "__"]) (mgA_const ";")⟩),
    ("slash", ⟨"slash", none,
      .action (.sequence [.literal "/", .rule_ref "__"]) (mgA_const "/")⟩),
    ("and", ⟨"and", none,
      .action (.sequence [.literal "&", .rule_ref "__"]) (mgA_const "&")⟩),
    ("not", ⟨"not", none,
      .action (.sequence [.literal "!", .rule_ref "__"]) (mgA_const "!")⟩),
    ("question", ⟨"question", none,
      .action (.sequence [.literal "?", .rule_ref "__"]) (mgA_const "?")⟩),
    ("star", ⟨"star", none,
      .action (.sequence [.literal "*", .rule_ref "__"]) (mgA_const "*")⟩),
    ("plus", ⟨"plus", none,
      .action (.sequence [.literal "+", .rule_ref "__"]) (mgA_const "+")⟩),
    ("lparen", ⟨"lparen", none,
      .action (.sequence [.literal "(", .rule_ref "__"]) (mgA_const "(")⟩),
    ("rparen", ⟨"rparen", none,
      .action (.sequence [.literal ")", .rule_ref "__"]) (mgA_const ")")⟩),
    ("dot", ⟨"dot", none,
      .action (.sequence [.literal ".", .rule_ref "__"]) (mgA_const ".")⟩),
    ("identifier", ⟨"identifier", some "identifier",
      .action (.sequence
        [.labeled "head" (.choice [.rule_ref "letter", .literal "_", .literal "$"]),
         .labeled "tail" (.zero_or_more (.choice
           [.rule_ref "letter", .rule_ref "digit", .literal "_", .literal "$"])),
         .rule_ref "__"]) mgA_ident⟩),
    ("literal", ⟨"literal", some "literal",
      .action (.sequence
        [.labeled "literal" (.choice [.rule_ref "doubleQuotedLiteral", .rule_ref "singleQuotedLiteral"]),
         .rule_ref "__"]) mgA_arg0⟩),
    ("doubleQuotedLiteral", ⟨"doubleQuotedLiteral", none,
      .action (.sequence
        [.literal "\"",
         .labeled "chars" (.zero_or_more (.rule_ref "doubleQuotedCharacter")),
         .literal "\""]) mgA_join⟩),
    ("doubleQuotedCharacter", ⟨"doubleQuotedCharacter", none,
      .choice
        [.rule_ref "simpleDoubleQuotedCharacter",
         .rule_ref "simpleEscapeSequence",
         .rule_ref "zeroEscapeSequence",
         .rule_ref "hexEscapeSequence",
         .rule_ref "unicodeEscapeSequence",
         .rule_ref "eolEscapeSequence"]⟩),
    ("simpleDoubleQuotedCharacter", ⟨"simpleDoubleQuotedCharacter", none,
      .action (.sequence
        [.simple_not (.choice [.literal "\"", .literal "\\", .rule_ref "eolChar"]),
         .labeled "char_" .any]) mgA_arg0⟩),
    ("singleQuotedLiteral", ⟨"singleQuotedLiteral", none,
      .action (.sequence
        [.literal sq1,
         .labeled "chars" (.zero_or_more (.rule_ref "singleQuotedCharacter")),
         .literal sq1]) mgA_join⟩),
    ("singleQuotedCharacter", ⟨"singleQuotedCharacter", none,
      .choice
        [.rule_ref "simpleSingleQuotedCharacter",
         .rule_ref "simpleEscapeSequence",
         .rule_ref "zeroEscapeSequence",
         .rule_ref "hexEscapeSequence",
         .rule_ref "unicodeEscapeSequence",
         .rule_ref "eolEscapeSequence"]⟩),
    ("simpleSingleQuotedCharacter", ⟨"simpleSingleQuotedCharacter", none,
      .action (.sequence
        [.simple_not (.choice [.literal sq1, .literal "\\", .rule_ref "eolChar"]),
         .labeled "char_" .any]) mgA_arg0⟩),
    ("class", ⟨"class", some "character class",
      .action (.sequence
        [.literal "[",
         .labeled "inverted" (.optional (.literal "^")),
         .labeled "parts" (.zero_or_more (.choice
           [.rule_ref "classCharacterRange", .rule_ref "classCharacter"])),
         .literal "]",
         .rule_ref "__"]) mgA_class⟩),
    ("classCharacterRange", ⟨"classCharacterRange", none,
      .action (.sequence
        [.labeled "begin" (.rule_ref "classCharacter"),
         .literal "-",
         .labeled "end" (.rule_ref "classCharacter")]) mgA_ccRange⟩),
    ("classCharacter", ⟨"classCharacter", none,
      .action (.labeled "char_" (.rule_ref "bracketDelimitedCharacter")) mgA_classChar⟩),
    ("bracketDelimitedCharacter", ⟨"bracketDelimitedCharacter", none,
      .choice
        [.rule_ref "simpleBracketDelimitedCharacter",
         .rule_ref "simpleEscapeSequence",
         .rule_ref "zeroEscapeSequence",
         .rule_ref "hexEscapeSequence",
         .rule_ref "unicodeEscapeSequence",
         .rule_ref "eolEscapeSequence"]⟩),
    ("simpleBracketDelimitedCharacter", ⟨"simpleBracketDelimitedCharacter", none,
      .action (.sequence
        [.simple_not (.choice [.literal "]", .literal "\\", .rule_ref "eolChar"]),
         .labeled "char_" .any]) mgA_arg0⟩),
    ("simpleEscapeSequence", ⟨"simpleEscapeSequence", none,
      .action (.sequence
        [.literal "\\",
         .simple_not (.choice
           [.rule_ref "digit", .literal "x", .literal "u", .rule_ref "eolChar"]),
         .labeled "char_" .any]) mgA_simpleEsc⟩),
    ("zeroEscapeSequence", ⟨"zeroEscapeSequence", none,
      .action (.sequence [.literal "\\0", .simple_not (.rule_ref "digit")]) mgA_zeroEsc⟩),
    ("hexEscapeSequence", ⟨"hexEscapeSequence", none,
      .action (.sequence
        [.literal "\\x",
         .labeled "h1" (.rule_ref "hexDigit"),
         .labeled "h2" (.rule_ref "hexDigit")]) mgA_hexEsc⟩),
    ("unicodeEscapeSequence", ⟨"unicodeEscapeSequence", none,
      .action (.sequence
        [.literal "\\u",
         .labeled "h1" (.rule_ref "hexDigit"),
         .labeled "h2" (.rule_ref "hexDigit"),
         .labeled "h3" (.rule_ref "hexDigit"),
         .labeled "h4" (.rule_ref "hexDigit")]) mgA_uniEsc⟩),
    ("eolEscapeSequence", ⟨"eolEscapeSequence", none,
      .action (.sequence [.literal "\\", .labeled "eol" (.rule_ref "eol")]) mgA_arg0⟩),
    ("digit", ⟨"digit", none,
      .charClass false [.range '0' '9'] "[0-9]"⟩),
    ("hexDigit", ⟨"hexDigit", none,
      .charClass false [.range '0' '9', .range 'a' 'f', .range 'A' 'F'] "[0-9a-fA-F]"⟩),
    ("letter", ⟨"letter", none,
      .choice [.rule_ref "lowerCaseLetter", .rule_ref "upperCaseLetter"]⟩),
    ("lowerCaseLetter", ⟨"lowerCaseLetter", none,
      .charClass false [.range 'a' 'z'] "[a-z]"⟩),
    ("upperCaseLetter", ⟨"upperCaseLetter", none,
      .charClass false [.range 'A' 'Z'] "[A-Z]"⟩),
    ("__", ⟨"__", none,
      .zero_or_more (.choice [.rule_ref "whitespace", .rule_ref "eol", .rule_ref "comment"])⟩),
    ("comment", ⟨"comment", some "comment",
      .choice [.rule_ref "singleLineComment", .rule_ref "multiLineComment"]⟩),
    ("singleLineComment", ⟨"singleLineComment", none,
      .sequence
        [.literal "//",
         .zero_or_more (.sequence [.simple_not (.rule_ref "eolChar"), .any])]⟩),
    ("multiLineComment", ⟨"multiLineComment", none,
      .sequence
        [.literal "/*",
         .zero_or_more (.sequence [.simple_not (.literal "*/"), .any]),
         .literal "*/"]⟩),
    ("eol", ⟨"eol", some "end of line",
      .choice
        [.literal "\n", .literal "\r\n", .literal "\r",
         .literal "\u2028", .literal "\u2029"]⟩),
    ("eolChar", ⟨"eolChar", none,
      .charClass false
        [.single '\n', .single '\r', .single '\u2028', .single '\u2029']
        "[\\n\\r\\u2028\\u2029]"⟩),
    ("whitespace", ⟨"whitespace", some "whitespace",
      .charClass false
        [.single ' ', .single '\t', .single '\x0B', .single '\x0C', .single '-']
        "[ \t\x0B\x0C-]"⟩) ]

/-- The meta-grammar AGT: `PEG.grammarParser` is the emitted parser of
this grammar, and `PEG.buildParser` feeds grammar text through it. -/
def metaG : PGrammar := ⟨metaRules, "grammar", none⟩

/-- Does a modelled object have `type: "sequence"` and empty `elements`? -/
def isEmptySeqObj (fields : List (String × Value)) : Bool :=
  (match fields.lookup "type" with
   | some (.str "sequence") => true
   | _ => false) &&
  (match fields.lookup "elements" with
   | some (.list []) => true
   | _ => false)

/-- Fuel-bounded search for an empty-elements sequence node anywhere in a
modelled AGT value. -/
def emptySeqIn : Nat → Value → Bool
  | 0, _ => false
  | f + 1, v =>
    match v with
    | .obj fields => isEmptySeqObj fields || fields.any (fun p => emptySeqIn f p.2)
    | .list l => l.any (emptySeqIn f)
    | _ => false

/-- The AGT value produced by the meta-grammar parser for the grammar
text `a=`: one rule `a` whose expression is a sequence node with an
*empty* elements list. -/
def mgOutAeq : Value :=
  .obj [("type", .str "grammar"),
        ("initializer", .nullv),
        ("rules", .obj
          [("a", .obj
            [("type", .str "rule"),
             ("name", .str "a"),
             ("displayName", .nullv),
             ("expression", .obj
               [("type", .str "sequence"),
                ("elements", .list [])])])]),
        ("startRule", .str "a")]

/-! ## Definitions used to state the claims -/

/-- Characters that set `seenCR` in `computeErrorPosition`: carriage
return, line separator, paragraph separator. -/
def isCrLike (c : Char) : Bool :=
  c == '\r' || c == '\u2028' || c == '\u2029'

/-- Characters at which `computeErrorPosition` resets the column. -/
def isBreakChar (c : Char) : Bool :=
  c == '\n' || isCrLike c

/-- Stated from the spec's words (§4.4 "Error line/column" and the claim):
the number of line increments over a character list, counting one for
each CR-like character and one for each `"\n"` that does not follow a
seen CR (`prev` is the preceding character, `none` at the start).  Thus
`"\r\n"` counts exactly once. -/
def specLineBreaks : Option Char → List Char → Nat
  | _, [] => 0
  | prev, c :: rest =>
    (if isCrLike c then 1
     else if c == '\n' && !(match prev with | some p => isCrLike p | none => false) then 1
     else 0) + specLineBreaks (some c) rest

/-- Stated from the spec's words: the column after the walk is one more
than the length of the trailing run of non-line-break characters. -/
def specColumn (l : List Char) : Nat :=
  1 + (l.reverse.takeWhile (fun c => !isBreakChar c)).length

/-- Cache inclusion: every key bound in `c1` is bound to the same entry
in `c2` (entries are only ever added by an emitted parser). -/
def cacheLe (c1 c2 : List (String × CEntry)) : Prop :=
  ∀ k v, c1.lookup k = some v → c2.lookup k = some v

/-- The rule-map keys are pairwise distinct (JavaScript object keys). -/
def NodupKeys (G : PGrammar) : Prop :=
  (G.rules.map Prod.fst).Nodup

/-- Every rule is stored under its own `name` attribute (§3: "Rule-name
keys match their `rule.name` attribute"; the meta-grammar parser builds
`rulesConverted[rule.name] = rule`). -/
def NamesMatch (G : PGrammar) : Prop :=
  ∀ p ∈ G.rules, p.2.name = p.1

/-- The start rule is a key of the rule map. -/
def StartOk (G : PGrammar) : Prop :=
  (G.rules.lookup G.startRule).isSome

/-- Every `rule_ref` name occurring anywhere in the grammar is a key of
the rule map. -/
def RefsOk (G : PGrammar) : Prop :=
  ∀ p ∈ G.rules, ∀ m ∈ refsE p.2.expression, (G.rules.lookup m).isSome

/-- The proxy edge: rule `n` exists and is a proxy delegating to `m`. -/
def proxyTo (G : PGrammar) (n m : String) : Prop :=
  ∃ r, G.rules.lookup n = some r ∧ r.expression = .rule_ref m

/-- No chain of proxy rules returns to its starting name. -/
def ProxyAcyclic (G : PGrammar) : Prop :=
  ∀ n, ¬ Relation.TransGen (proxyTo G) n n

/-- No rule of the grammar is a proxy rule. -/
def NoProxies (G : PGrammar) : Prop :=
  ∀ p ∈ G.rules, isProxyR p.2 = false

/-- A well-formed AGT as produced by the meta-grammar parser (§3 data
model): distinct keys matching the `name` attributes, start rule
present. -/
def WfG (G : PGrammar) : Prop :=
  NodupKeys G ∧ NamesMatch G ∧ StartOk G

/-- Both semantic checks complete without raising (for a sufficient
recursion-depth budget). -/
def ChecksPass (G : PGrammar) : Prop :=
  (∃ f1, check1 G f1 = .ok ()) ∧ (∃ f2, check2 G f2 = .ok ())

/-- The `computeErrorPosition` walk expressed over a character list (the
index loop `cepGo` coincides with it as long as the stop position is
within the input, see `cepGo_eq_cepList`). -/
def cepList : List Char → Nat → Nat → Bool → Nat × Nat
  | [], line, col, _ => (line, col)
  | c :: rest, line, col, cr =>
    let s := cepStep line col cr (some c)
    cepList rest s.1 s.2.1 s.2.2

/-- The `seenCR` flag as determined by the previously processed
character. -/
def crFlag (prev : Option Char) : Bool :=
  match prev with
  | some p => isCrLike p
  | none => false

/-- Renaming of one rule name by proxy elimination (`from ↦ to`). -/
def subst (a b x : String) : String :=
  if x = a then b else x

/-- Scenario 1 grammar text. -/
def gtxtC1 : String := "start = \"a\"* \x7b return arguments[0].length \x7d"

/-- The AGT value produced by the meta-grammar parser for scenario 1's
text: the action wraps the bare `zero_or_more` node (this is the
object-tree rendering of `gC1`). -/
def vC1 : Value :=
  .obj [("type", .str "grammar"), ("initializer", .nullv),
        ("rules", .obj [("start", .obj
          [("type", .str "rule"), ("name", .str "start"), ("displayName", .nullv),
           ("expression", .obj
             [("type", .str "action"),
              ("expression", .obj
                [("type", .str "zero_or_more"),
                 ("expression", .obj [("type", .str "literal"), ("value", .str "a")])]),
              ("code", .str " return arguments[0].length ")])])]),
        ("startRule", .str "start")]

/-- Scenario 4 grammar text. -/
def gtxtC6 : String := "start = &\"a\" ."

/-- The AGT value produced by the meta-grammar parser for scenario 4's
text (object-tree rendering of `gC6`). -/
def vC6 : Value :=
  .obj [("type", .str "grammar"), ("initializer", .nullv),
        ("rules", .obj [("start", .obj
          [("type", .str "rule"), ("name", .str "start"), ("displayName", .nullv),
           ("expression", .obj
             [("type", .str "sequence"),
              ("elements", .list
                [.obj [("type", .str "simple_and"),
                       ("expression", .obj [("type", .str "literal"), ("value", .str "a")])],
                 .obj [("type", .str "any")]])])])]),
        ("startRule", .str "start")]

/-- Scenario 6 grammar text. -/
def gtxtC3 : String := "s = s \"a\" / \"a\""

/-- The AGT value produced by the meta-grammar parser for scenario 6's
text (object-tree rendering of `gLR`). -/
def vC3 : Value :=
  .obj [("type", .str "grammar"), ("initializer", .nullv),
        ("rules", .obj [("s", .obj
          [("type", .str "rule"), ("name", .str "s"), ("displayName", .nullv),
           ("expression", .obj
             [("type", .str "choice"),
              ("alternatives", .list
                [.obj [("type", .str "sequence"),
                       ("elements", .list
                         [.obj [("type", .str "rule_ref"), ("name", .str "s")],
                          .obj [("type", .str "literal"), ("value", .str "a")]])],
                 .obj [("type", .str "literal"), ("value", .str "a")]])])])]),
        ("startRule", .str "s")]

/-- Hypothesis bundle: the evaluator only ever extends the cache. -/
def EvMono (ev : Ev) : Prop :=
  ∀ e rmf st out, ev e rmf st = .ok out → cacheLe st.cache out.2.cache

/-- The invariant carried through the proxy-elimination loop: distinct
keys, names matching keys, a resolvable start rule, resolvable rule
references, and no cyclic proxy chain. -/
def InvG (G : PGrammar) : Prop :=
  NodupKeys G ∧ NamesMatch G ∧ StartOk G ∧ RefsOk G ∧ ProxyAcyclic G

/-- Every rule that is (still) a proxy has its key among the names still
to be processed by the elimination loop. -/
def ProxiesIn (G : PGrammar) (ord : List String) : Prop :=
  ∀ k r, G.rules.lookup k = some r → isProxyR r = true → k ∈ ord

/-! # Theorems -/

/-- `contains` is membership for strings. -/
theorem contains_eq_true_of_mem {l : List String} {a : String} (h : a ∈ l) :
    l.contains a = true :=
  List.elem_eq_true_of_mem h

/-- Claim C10: the matcher emitted for a literal node whose value is the
empty string succeeds at every position (including past-the-end
positions), yields the value `""`, and leaves the entire parser state —
position, cache and rightmost-failure data — unchanged; it never
produces FAIL and never records a match failure. -/
theorem claim10_thm (g : List (String × PRule)) (input : List Char) (f : Nat)
    (rmf : Bool) (st : PState) :
    matchE g input (f + 1) (.literal "") rmf st = .ok (some (.str ""), st) := by
  have hlit : litTest input st.pos "" = true := by
    simp [litTest]
  simp [matchE, hlit]

/-- `matchFailed` when `pos < rightmostMatchFailuresPos`: no change. -/
theorem matchFailedFn_lt {pos failPos : Nat} (failure : String) (failExp : List String)
    (h : pos < failPos) :
    matchFailedFn pos failure failPos failExp = (failPos, failExp) := by
  simp [matchFailedFn, h]

/-- `matchFailed` when `pos > rightmostMatchFailuresPos`: the position is
advanced, the expected set is cleared and then the new expectation is
appended. -/
theorem matchFailedFn_gt {pos failPos : Nat} (failure : String) (failExp : List String)
    (h : failPos < pos) :
    matchFailedFn pos failure failPos failExp = (pos, [failure]) := by
  simp [matchFailedFn, Nat.lt_asymm h, h]

/-- `matchFailed` at the rightmost position: append unless already
present (string equality). -/
theorem matchFailedFn_eq (pos : Nat) (failure : String) (failExp : List String) :
    matchFailedFn pos failure pos failExp
      = (pos, if failExp.contains failure then failExp else failExp ++ [failure]) := by
  simp only [matchFailedFn, Nat.lt_irrefl, if_false, Nat.lt_irrefl, gt_iff_lt]
  split <;> rfl

/-- `matchFailed` never decreases `rightmostMatchFailuresPos`. -/
theorem matchFailedFn_mono (pos : Nat) (failure : String) (failPos : Nat)
    (failExp : List String) :
    failPos ≤ (matchFailedFn pos failure failPos failExp).1 := by
  unfold matchFailedFn
  split
  · exact Nat.le_refl _
  · dsimp only
    split <;> split <;> simp <;> omega

/-- `matchFailed` keeps the expected set free of duplicates. -/
theorem matchFailedFn_nodup (pos : Nat) (failure : String) (failPos : Nat)
    (failExp : List String) (h : failExp.Nodup) :
    ((matchFailedFn pos failure failPos failExp).2).Nodup := by
  unfold matchFailedFn
  split
  · exact h
  · dsimp only
    by_cases hgt : pos > failPos
    · simp only [hgt, if_true]
      split
      · simp_all
      · simp
    · simp only [hgt, if_false]
      split
      next hc => exact h
      next hc =>
        refine List.Nodup.append h (List.nodup_singleton _) ?_
        intro x hx hx'
        rw [List.mem_singleton] at hx'
        subst hx'
        exact hc (contains_eq_true_of_mem hx)

/-- Folding any sequence of `matchFailed` calls never decreases the
rightmost-failure position. -/
theorem foldFail_mono (calls : List (Nat × String)) (st : Nat × List String) :
    st.1 ≤ (calls.foldl (fun st c => matchFailedFn c.1 c.2 st.1 st.2) st).1 := by
  induction calls generalizing st with
  | nil => exact Nat.le_refl _
  | cons c rest ih =>
    simp only [List.foldl_cons]
    exact Nat.le_trans (matchFailedFn_mono c.1 c.2 st.1 st.2) (ih _)

/-- Folding any sequence of `matchFailed` calls preserves duplicate
freedom of the expected set. -/
theorem foldFail_nodup_aux (calls : List (Nat × String)) (st : Nat × List String)
    (h : st.2.Nodup) :
    ((calls.foldl (fun st c => matchFailedFn c.1 c.2 st.1 st.2) st).2).Nodup := by
  induction calls generalizing st with
  | nil => exact h
  | cons c rest ih =>
    simp only [List.foldl_cons]
    exact ih _ (matchFailedFn_nodup c.1 c.2 st.1 st.2 h)

/-- Claim C7: `matchFailed(expected)` ignores the call when
`pos < rightmostFailPos`; when `pos > rightmostFailPos` it moves the
rightmost position to `pos` and resets the expected set (to the single
new expectation); at the rightmost position it appends the expectation
unless an equal string is already present.  Consequently, over any
sequence of `matchFailed` calls in a parse, the rightmost-failure
position never decreases and the expected set never holds two equal
strings. -/
theorem claim7_thm :
    (∀ (pos failPos : Nat) (failure : String) (failExp : List String), pos < failPos →
       matchFailedFn pos failure failPos failExp = (failPos, failExp)) ∧
    (∀ (pos failPos : Nat) (failure : String) (failExp : List String), failPos < pos →
       matchFailedFn pos failure failPos failExp = (pos, [failure])) ∧
    (∀ (pos : Nat) (failure : String) (failExp : List String),
       matchFailedFn pos failure pos failExp
         = (pos, if failExp.contains failure then failExp else failExp ++ [failure])) ∧
    (∀ (pos : Nat) (failure : String) (failPos : Nat) (failExp : List String),
       failPos ≤ (matchFailedFn pos failure failPos failExp).1) ∧
    (∀ (calls : List (Nat × String)) (st : Nat × List String),
       st.1 ≤ (calls.foldl (fun st c => matchFailedFn c.1 c.2 st.1 st.2) st).1) ∧
    (∀ calls : List (Nat × String),
       ((calls.foldl (fun st c => matchFailedFn c.1 c.2 st.1 st.2) (0, [])).2).Nodup) :=
  ⟨fun _ _ failure failExp h => matchFailedFn_lt failure failExp h,
   fun _ _ failure failExp h => matchFailedFn_gt failure failExp h,
   matchFailedFn_eq,
   matchFailedFn_mono,
   foldFail_mono,
   fun calls => foldFail_nodup_aux calls (0, []) List.nodup_nil⟩

/-- Witness for C7 at a concrete call: a failure reported at position 2
over rightmost position 1 replaces the expected set. -/
theorem claim7_witness :
    (1 : Nat) < 2 ∧ matchFailedFn 2 "\"a\"" 1 ["\"b\""] = (2, ["\"a\""]) :=
  ⟨by decide, claim7_thm.2.1 2 1 "\"a\"" ["\"b\""] (by decide)⟩

/-- Claim C3: the left-recursion check raises
`GrammarError("Left recursion detected for rule \"X\".")` exactly when a
rule reference's name is already on the active stack of entered rules
(first conjunct: for every grammar, stack and name on it); compiling
`s = s "a" / "a"` raises exactly this error for rule `s` (second
conjunct), while the proxy grammar `s = x; x = "a"` passes the check
(third conjunct); the meta-grammar parser maps scenario 6's text to the
`gLR` tree (fourth conjunct). -/
theorem claim3_thm :
    (∀ (g : List (String × PRule)) (f : Nat) (applied : List String) (name : String),
       name ∈ applied →
       c2E g (f + 1) (.rule_ref name) applied
         = .error (.grammarError ("Left recursion detected for rule \"" ++ name ++ "\"."))) ∧
    check2 gLR 10 = .error (.grammarError "Left recursion detected for rule \"s\".") ∧
    check2 gProxy 10 = .ok () ∧
    parseInput metaG 80 (gtxtC3.toList) = .ok (.success vC3) := by
  refine ⟨?_, rfl, rfl, rfl⟩
  intro g f applied name h
  simp only [c2E, contains_eq_true_of_mem h, if_true]

/-- Witness for C3's universally quantified conjunct at a concrete
stack. -/
theorem claim3_witness :
    "s" ∈ ["s"] ∧
    c2E [] 1 (.rule_ref "s") ["s"]
      = .error (.grammarError ("Left recursion detected for rule \"" ++ "s" ++ "\".")) :=
  ⟨by decide, claim3_thm.1 [] 0 ["s"] "s" (by decide)⟩

/-- Counterexample to claim C1 as stated: parsing `"aaaa"` with the
compiled scenario-1 grammar does not return the value 4. -/
theorem claim1_counterexample :
    parseInput gC1 20 ("aaaa".toList) ≠ .ok (.success (.num 4)) := by
  intro h
  rw [show parseInput gC1 20 ("aaaa".toList) = .error .typeError from rfl] at h
  exact Except.noConfusion h

/-- Amended claim C1: compiling
`start = "a"* { return arguments[0].length }` passes both checks and the
meta-grammar parser wraps the bare `zero_or_more` in the action; but by
the splatting rule the action receives *zero* arguments, so evaluating
`arguments[0].length` throws a host TypeError out of `parse("aaaa")`
instead of returning 4. -/
theorem claim1_thm :
    check1 gC1 10 = .ok () ∧ check2 gC1 10 = .ok () ∧
    parseInput metaG 80 (gtxtC1.toList) = .ok (.success vC1) ∧
    parseInput gC1 20 ("aaaa".toList) = .error .typeError :=
  ⟨rfl, rfl, rfl, rfl⟩

/-- Counterexample to claim C6 as stated: parsing `"a"` with the
compiled `start = &"a" .` does not return the semantic value `"a"`. -/
theorem claim6_counterexample :
    parseInput gC6 20 ("a".toList) ≠ .ok (.success (.str "a")) := by
  intro h
  rw [show parseInput gC6 20 ("a".toList)
        = .ok (.success (.list [.str "", .str "a"])) from rfl] at h
  have := Except.ok.inj h
  have := Outcome.success.inj this
  exact Value.noConfusion this

/-- Amended claim C6: `start = &"a" .` on `"a"` succeeds with the
*two-element sequence value* `["", "a"]` (the lookahead's synthetic empty
string and the consumed character) and leaves `pos = 1`; the final
conjunct ties scenario 4's text to the `gC6` tree. -/
theorem claim6_thm :
    parseInput gC6 20 ("a".toList) = .ok (.success (.list [.str "", .str "a"])) ∧
    ruleGo (matchE gC6.rules ("a".toList) 20) gC6.rules "start" true ⟨0, [], 0, []⟩
      = .ok (some (.list [.str "", .str "a"]),
             ⟨1, [("start@0", ⟨1, some (.list [.str "", .str "a"])⟩)], 0, []⟩) ∧
    parseInput metaG 80 (gtxtC6.toList) = .ok (.success vC6) :=
  ⟨rfl, rfl, rfl⟩

/-- Within the input, the index loop of `computeErrorPosition` is the
walk over the corresponding character-list segment. -/
theorem cepGo_eq_cepList (input : List Char) :
    ∀ (left i line col : Nat) (cr : Bool), i + left ≤ input.length →
      cepGo input left i line col cr = cepList ((input.drop i).take left) line col cr := by
  intro left
  induction left with
  | zero => intro i line col cr _; simp [cepGo, cepList]
  | succ l ih =>
    intro i line col cr h
    have hi : i < input.length := by omega
    have hc : charAt? input i = some input[i] := by
      simp [charAt?, List.get?_eq_getElem?, List.getElem?_eq_getElem hi]
    have hdrop : input.drop i = input[i] :: input.drop (i + 1) :=
      List.drop_eq_getElem_cons hi
    rw [show cepGo input (l + 1) i line col cr
          = (let s := cepStep line col cr (charAt? input i);
             cepGo input l (i + 1) s.1 s.2.1 s.2.2) from rfl,
        hc, hdrop]
    simp only [List.take_succ_cons, cepList]
    exact ih (i + 1) _ _ _ (by omega)

/-- The line component of the walk: the start line plus one increment
per CR-like character and per `"\n"` not following a seen CR. -/
theorem cepList_line (l : List Char) :
    ∀ (line col : Nat) (prev : Option Char),
      (cepList l line col (crFlag prev)).1 = line + specLineBreaks prev l := by
  induction l with
  | nil => intro line col prev; simp [cepList, specLineBreaks]
  | cons c rest ih =>
    intro line col prev
    by_cases hn : c = '\n'
    · subst hn
      have hcr : isCrLike '\n' = false := by decide
      by_cases hp : crFlag prev = true
      · rw [show cepList ('\n' :: rest) line col (crFlag prev)
              = cepList rest (if crFlag prev then line else line + 1) 1 false from rfl,
            hp]
        have : (false : Bool) = crFlag (some '\n') := by decide
        rw [if_pos rfl, this, ih]
        simp [specLineBreaks, hcr, crFlag] at hp ⊢
        simp [hp]
      · rw [show cepList ('\n' :: rest) line col (crFlag prev)
              = cepList rest (if crFlag prev then line else line + 1) 1 false from rfl]
        rw [Bool.not_eq_true] at hp
        rw [hp]
        have : (false : Bool) = crFlag (some '\n') := by decide
        rw [if_neg (by simp), this, ih]
        simp [specLineBreaks, hcr, crFlag] at hp ⊢
        rw [hp]
        simp
        omega
    · by_cases hr : c = '\r' ∨ c = '\u2028' ∨ c = '\u2029'
      · have hcr : isCrLike c = true := by
          rcases hr with h | h | h <;> simp [isCrLike, h]
        have hstep : cepStep line col (crFlag prev) (some c) = (line + 1, 1, true) := by
          simp [cepStep, hn, hr]
        rw [show cepList (c :: rest) line col (crFlag prev)
              = cepList rest (cepStep line col (crFlag prev) (some c)).1
                  (cepStep line col (crFlag prev) (some c)).2.1
                  (cepStep line col (crFlag prev) (some c)).2.2 from rfl,
            hstep]
        have : (true : Bool) = crFlag (some c) := by simp [crFlag, hcr]
        rw [show (((line + 1 : Nat), (1 : Nat), true) : Nat × Nat × Bool).2.2 = true from rfl]
        rw [this, ih]
        simp [specLineBreaks, hcr]
        omega
      · have hcr : isCrLike c = false := by
          push_neg at hr
          obtain ⟨h1, h2, h3⟩ := hr
          simp [isCrLike, h1, h2, h3]
        have hstep : cepStep line col (crFlag prev) (some c) = (line, col + 1, false) := by
          simp [cepStep, hn, hr]
        rw [show cepList (c :: rest) line col (crFlag prev)
              = cepList rest (cepStep line col (crFlag prev) (some c)).1
                  (cepStep line col (crFlag prev) (some c)).2.1
                  (cepStep line col (crFlag prev) (some c)).2.2 from rfl,
            hstep]
        have : (false : Bool) = crFlag (some c) := by simp [crFlag, hcr]
        rw [show (((line : Nat), (col + 1 : Nat), false) : Nat × Nat × Bool).2.2 = false from rfl]
        rw [this, ih]
        simp [specLineBreaks, hcr, hn]

/-- `cepStep` resets the column exactly at the break characters. -/
theorem cepStep_col (line col : Nat) (cr : Bool) (c : Char) :
    (cepStep line col cr (some c)).2.1 = if isBreakChar c then 1 else col + 1 := by
  by_cases hn : c = '\n'
  · simp [cepStep, hn, isBreakChar]
  · by_cases hr : c = '\r' ∨ c = '\u2028' ∨ c = '\u2029'
    · have : isBreakChar c = true := by
        rcases hr with h | h | h <;> simp [isBreakChar, isCrLike, h]
      simp [cepStep, hn, hr, this]
    · have : isBreakChar c = false := by
        push_neg at hr
        obtain ⟨h1, h2, h3⟩ := hr
        simp [isBreakChar, isCrLike, hn, h1, h2, h3]
      simp [cepStep, hn, hr, this]

/-- `takeWhile` runs through a prefix all of whose elements satisfy the
predicate. -/
theorem takeWhile_append_all {α : Type} (p : α → Bool) (xs ys : List α)
    (h : ∀ x ∈ xs, p x) :
    (xs ++ ys).takeWhile p = xs ++ ys.takeWhile p := by
  induction xs with
  | nil => simp
  | cons x rest ih =>
    have hx : p x := h x (by simp)
    simp only [List.cons_append, List.takeWhile_cons, hx, if_true]
    rw [ih (fun a ha => h a (by simp [ha]))]

/-- `takeWhile` never reaches the suffix when some prefix element fails
the predicate. -/
theorem takeWhile_append_stop {α : Type} (p : α → Bool) (xs ys : List α)
    (h : ∃ x ∈ xs, ¬ p x) :
    (xs ++ ys).takeWhile p = xs.takeWhile p := by
  induction xs with
  | nil => simp at h
  | cons x rest ih =>
    by_cases hx : p x
    · simp only [List.cons_append, List.takeWhile_cons, hx, if_true]
      rcases h with ⟨w, hw, hpw⟩
      rcases List.mem_cons.mp hw with rfl | hw'
      · exact absurd hx hpw
      · rw [ih ⟨w, hw', hpw⟩]
    · rw [List.cons_append]
      rw [Bool.not_eq_true] at hx
      simp [List.takeWhile_cons, hx]

/-- The trailing-run length of a cons. -/
theorem specColumn_cons (c : Char) (rest : List Char) :
    specColumn (c :: rest)
      = if rest.any isBreakChar then specColumn rest
        else if isBreakChar c then 1 + rest.length else 1 + (rest.length + 1) := by
  unfold specColumn
  rw [List.reverse_cons]
  by_cases hb : rest.any isBreakChar
  · rcases List.any_eq_true.mp hb with ⟨w, hw, hpw⟩
    rw [takeWhile_append_stop _ _ _ ⟨w, List.mem_reverse.mpr hw, by simp [hpw]⟩,
        if_pos hb]
  · have hall : ∀ x ∈ rest.reverse, (!isBreakChar x) = true := by
      intro x hx
      have : ¬ isBreakChar x := by
        intro hbx
        exact hb (List.any_eq_true.mpr ⟨x, List.mem_reverse.mp hx, hbx⟩)
      simp [this]
    rw [takeWhile_append_all _ _ _ hall, if_neg hb]
    by_cases hc : isBreakChar c
    · rw [if_pos hc]
      simp [List.takeWhile_cons, hc]
    · rw [if_neg hc]
      simp [List.takeWhile_cons, hc]

/-- When no break character occurs, the trailing run is the whole list. -/
theorem specColumn_no_break (l : List Char) (h : ¬ l.any isBreakChar) :
    specColumn l = 1 + l.length := by
  unfold specColumn
  have hall : ∀ x ∈ l.reverse, (!isBreakChar x) = true := by
    intro x hx
    have : ¬ isBreakChar x := by
      intro hbx
      exact h (List.any_eq_true.mpr ⟨x, List.mem_reverse.mp hx, hbx⟩)
    simp [this]
  rw [List.takeWhile_eq_self_iff.mpr hall]
  simp

/-- The column component of the walk: `1 +` length of the trailing
non-break run when a break occurred, otherwise the start column plus the
number of characters. -/
theorem cepList_col (l : List Char) :
    ∀ (line col : Nat) (cr : Bool),
      (cepList l line col cr).2
        = if l.any isBreakChar then specColumn l else col + l.length := by
  induction l with
  | nil => intro line col cr; simp [cepList]
  | cons c rest ih =>
    intro line col cr
    rw [show cepList (c :: rest) line col cr
          = cepList rest (cepStep line col cr (some c)).1
              (cepStep line col cr (some c)).2.1
              (cepStep line col cr (some c)).2.2 from rfl]
    rw [ih]
    rw [cepStep_col]
    by_cases hb : rest.any isBreakChar
    · rw [if_pos hb]
      have hcr : (c :: rest).any isBreakChar = true := by simp [hb]
      rw [if_pos hcr, specColumn_cons, if_pos hb]
    · rw [if_neg hb]
      by_cases hc : isBreakChar c
      · have hcr : (c :: rest).any isBreakChar = true := by simp [hc]
        rw [if_pos hcr, specColumn_cons, if_neg hb, if_pos hc, if_pos hc]
      · have hcr : ¬ ((c :: rest).any isBreakChar = true) := by simp [hc, hb]
        rw [if_neg hcr, if_neg hc]
        simp
        omega

/-- Claim C8: for every stop position within the input,
`computeErrorPosition` returns exactly `line = 1 +` (one increment per
CR-like character — `"\r"`, U+2028, U+2029 — plus one per `"\n"` that
does not follow a seen CR, so that `"\r\n"` counts once) and
`column = 1 +` the length of the trailing run of non-line-break
characters (every line break resets the column, every other character
increments it). -/
theorem claim8_thm (input : List Char) (n : Nat) (h : n ≤ input.length) :
    computeErrorPosition input n
      = (1 + specLineBreaks none (input.take n), specColumn (input.take n)) := by
  have h1 : cepGo input n 0 1 1 false = cepList ((input.drop 0).take n) 1 1 false :=
    cepGo_eq_cepList input n 0 1 1 false (by omega)
  rw [show computeErrorPosition input n = cepGo input n 0 1 1 false from rfl, h1,
      List.drop_zero]
  have hline := cepList_line (input.take n) 1 1 none
  have hcol := cepList_col (input.take n) 1 1 false
  rw [show crFlag none = false from rfl] at hline
  refine Prod.ext ?_ ?_
  · rw [hline]
  · rw [hcol]
    by_cases hb : (input.take n).any isBreakChar
    · rw [if_pos hb]
    · rw [if_neg hb, specColumn_no_break _ hb]

/-- Witness for C8 on the concrete input `"ab\r\ncd"` walked to its end:
one line break for the `"\r\n"` pair, column 3. -/
theorem claim8_witness :
    (6 : Nat) ≤ ("ab\r\ncd".toList).length ∧
    computeErrorPosition ("ab\r\ncd".toList) 6
      = (1 + specLineBreaks none (("ab\r\ncd".toList).take 6),
         specColumn (("ab\r\ncd".toList).take 6)) :=
  ⟨by decide, claim8_thm ("ab\r\ncd".toList) 6 (by decide)⟩

/-- Cache inclusion is reflexive. -/
theorem cacheLe_refl (c : List (String × CEntry)) : cacheLe c c :=
  fun _ _ h => h

/-- Cache inclusion is transitive. -/
theorem cacheLe_trans {a b c : List (String × CEntry)}
    (h1 : cacheLe a b) (h2 : cacheLe b c) : cacheLe a c :=
  fun k v hv => h2 k v (h1 k v hv)

/-- `matchFailed` does not touch the cache. -/
theorem recordFail_cache (s : String) (st : PState) :
    (recordFail s st).cache = st.cache := rfl

/-- Choice alternatives only extend the cache. -/
theorem altsGo_mono {ev : Ev} (hev : EvMono ev) :
    ∀ (l : List Expr) (rmf : Bool) (st : PState) out,
      altsGo ev rmf l st = .ok out → cacheLe st.cache out.2.cache := by
  intro l
  induction l with
  | nil =>
    intro rmf st out h
    simp only [altsGo] at h
    cases h
    exact cacheLe_refl _
  | cons a rest ih =>
    intro rmf st out h
    simp only [altsGo] at h
    split at h
    next st1 heq =>
      have h1 := hev _ _ _ _ heq
      exact cacheLe_trans h1 (ih rmf st1 out h)
    next hne =>
      have h1 := hev _ _ _ _ h
      exact h1

/-- Sequence elements only extend the cache. -/
theorem seqGo_mono {ev : Ev} (hev : EvMono ev) :
    ∀ (l : List Expr) (rmf : Bool) (st : PState) out,
      seqGo ev rmf l st = .ok out → cacheLe st.cache out.2.cache := by
  intro l
  induction l with
  | nil =>
    intro rmf st out h
    simp only [seqGo] at h
    cases h
    exact cacheLe_refl _
  | cons e rest ih =>
    intro rmf st out h
    simp only [seqGo] at h
    split at h
    next heq => exact Except.noConfusion h
    next st1 heq =>
      cases h
      have h1 := hev _ _ _ _ heq
      exact h1
    next v st1 heq =>
      split at h
      next heq2 => exact Except.noConfusion h
      next st2 heq2 =>
        cases h
        have h1 := hev _ _ _ _ heq
        have h2 := ih rmf st1 _ heq2
        exact cacheLe_trans h1 h2
      next vs st2 heq2 =>
        cases h
        have h1 := hev _ _ _ _ heq
        have h2 := ih rmf st1 _ heq2
        exact cacheLe_trans h1 h2

/-- Repetition loops only extend the cache. -/
theorem starGo_mono {ev : Ev} (hev : EvMono ev) :
    ∀ (n : Nat) (e : Expr) (rmf : Bool) (st : PState) (acc : List Value) out,
      starGo ev e rmf n st acc = .ok out → cacheLe st.cache out.2.cache := by
  intro n
  induction n with
  | zero => intro e rmf st acc out h; exact Except.noConfusion h
  | succ n ih =>
    intro e rmf st acc out h
    simp only [starGo] at h
    split at h
    next heq => exact Except.noConfusion h
    next st1 heq =>
      cases h
      have h1 := hev _ _ _ _ heq
      exact h1
    next v st1 heq =>
      have h1 := hev _ _ _ _ heq
      exact cacheLe_trans h1 (ih e rmf st1 _ out h)

/-- The emitted rule function only extends the cache: a hit leaves it
unchanged, a miss appends the one new binding after the body ran. -/
theorem ruleGo_mono {ev : Ev} (hev : EvMono ev)
    (g : List (String × PRule)) (name : String) (rmf : Bool) (st : PState) out
    (h : ruleGo ev g name rmf st = .ok out) : cacheLe st.cache out.2.cache := by
  simp only [ruleGo] at h
  split at h
  next ce heq =>
    cases h
    exact cacheLe_refl _
  next hmiss =>
    split at h
    next => exact Except.noConfusion h
    next r hrule =>
      split at h
      next => exact Except.noConfusion h
      next res st1 hbody =>
        cases h
        intro k v hv
        have hk : ¬ (k == ruleKey name st.pos) := by
          intro hkey
          rw [show k = ruleKey name st.pos from by
                simpa using hkey] at hv
          rw [hv] at hmiss
          exact Option.noConfusion hmiss
        have hv1 : (match r.displayName with
            | some d => if rmf && res.isNone then recordFail d st1 else st1
            | none => st1).cache.lookup k = some v := by
          have h1 : cacheLe st.cache st1.cache := hev _ _ _ _ hbody
          cases hd : r.displayName with
          | some d =>
            by_cases hc : rmf && res.isNone
            · simpa [hd, hc, recordFail] using h1 k v hv
            · simpa [hd, hc] using h1 k v hv
          | none => simpa [hd] using h1 k v hv
        simpa [List.lookup, hk] using hv1

/-- Every successful evaluation of emitted code only extends the packrat
cache: a `{nextPos, result}` binding, once stored, is never removed or
overwritten within the parse. -/
theorem matchE_mono (g : List (String × PRule)) (input : List Char) :
    ∀ (f : Nat), EvMono (matchE g input f) := by
  intro f
  induction f with
  | zero => intro e rmf st out h; exact Except.noConfusion h
  | succ f ih =>
    intro e rmf st out h
    cases e with
    | choice alts =>
      simp only [matchE] at h
      exact altsGo_mono ih alts rmf st out h
    | sequence els =>
      simp only [matchE] at h
      split at h
      next => exact Except.noConfusion h
      next st1 heq =>
        cases h
        have h1 := seqGo_mono ih els rmf st _ heq
        exact h1
      next vs st1 heq =>
        cases h
        have h1 := seqGo_mono ih els rmf st _ heq
        exact h1
    | labeled lab e1 =>
      simp only [matchE] at h
      exact ih e1 rmf st out h
    | simple_and e1 =>
      simp only [matchE] at h
      split at h
      next => exact Except.noConfusion h
      next v st1 heq =>
        cases h
        have h1 := ih e1 false st _ heq
        exact h1
      next st1 heq =>
        cases h
        have h1 := ih e1 false st _ heq
        exact h1
    | simple_not e1 =>
      simp only [matchE] at h
      split at h
      next => exact Except.noConfusion h
      next st1 heq =>
        cases h
        have h1 := ih e1 false st _ heq
        exact h1
      next v st1 heq =>
        cases h
        have h1 := ih e1 false st _ heq
        exact h1
    | semantic_and a =>
      simp only [matchE] at h
      split at h
      next => exact Except.noConfusion h
      next v heq =>
        cases h
        exact cacheLe_refl _
    | semantic_not a =>
      simp only [matchE] at h
      split at h
      next => exact Except.noConfusion h
      next v heq =>
        cases h
        exact cacheLe_refl _
    | optional e1 =>
      simp only [matchE] at h
      split at h
      next => exact Except.noConfusion h
      next v st1 heq =>
        cases h
        have h1 := ih e1 rmf st _ heq
        exact h1
      next st1 heq =>
        cases h
        have h1 := ih e1 rmf st _ heq
        exact h1
    | zero_or_more e1 =>
      simp only [matchE] at h
      exact starGo_mono ih (f + 1) e1 rmf st [] out h
    | one_or_more e1 =>
      simp only [matchE] at h
      split at h
      next => exact Except.noConfusion h
      next st1 heq =>
        cases h
        have h1 := ih e1 rmf st _ heq
        exact h1
      next v st1 heq =>
        have h1 := ih e1 rmf st _ heq
        exact cacheLe_trans h1 (starGo_mono ih (f + 1) e1 rmf st1 _ out h)
    | action e1 a =>
      simp only [matchE] at h
      split at h
      next => exact Except.noConfusion h
      next st1 heq =>
        cases h
        have h1 := ih e1 rmf st _ heq
        exact h1
      next v st1 heq =>
        split at h
        next => exact Except.noConfusion h
        next r hr =>
          cases h
          have h1 := ih e1 rmf st _ heq
          exact h1
    | rule_ref n =>
      simp only [matchE] at h
      exact ruleGo_mono ih g n rmf st out h
    | literal s =>
      simp only [matchE] at h
      split at h
      · cases h
        exact cacheLe_refl _
      · cases h
        cases rmf
        · exact cacheLe_refl _
        · intro k v hv
          simpa [recordFail_cache] using hv
    | any =>
      simp only [matchE] at h
      split at h
      next c heq =>
        cases h
        exact cacheLe_refl _
      next heq =>
        cases h
        cases rmf
        · exact cacheLe_refl _
        · intro k v hv
          simpa [recordFail_cache] using hv
    | charClass inv parts raw =>
      simp only [matchE] at h
      split at h
      next c heq =>
        split at h
        · cases h
          exact cacheLe_refl _
        · cases h
          cases rmf
          · exact cacheLe_refl _
          · intro k v hv
            simpa [recordFail_cache] using hv
      next heq =>
        cases h
        cases rmf
        · exact cacheLe_refl _
        · intro k v hv
          simpa [recordFail_cache] using hv

/-- Claim C5: (1) a call to an emitted rule function at a position whose
cache entry exists takes the cache branch — it returns the stored result
and moves `pos` to the stored `nextPos`, touching nothing else; (2) a
first (uncached) invocation that returns stores `{nextPos: final pos,
result: its result}` under the key `name + "@" + entry pos` before
returning; (3) the cache only ever grows during evaluation, so the entry
stored by the first invocation is still found by every later invocation
at that position within the same parse. -/
theorem claim5_thm :
    (∀ (g : List (String × PRule)) (input : List Char) (f : Nat) (name : String)
       (rmf : Bool) (st : PState) (ce : CEntry),
       st.cache.lookup (ruleKey name st.pos) = some ce →
       ruleGo (matchE g input f) g name rmf st = .ok (ce.result, { st with pos := ce.nextPos })) ∧
    (∀ (g : List (String × PRule)) (input : List Char) (f : Nat) (name : String)
       (rmf : Bool) (st : PState) (res : Option Value) (st' : PState),
       st.cache.lookup (ruleKey name st.pos) = none →
       ruleGo (matchE g input f) g name rmf st = .ok (res, st') →
       st'.cache.lookup (ruleKey name st.pos) = some ⟨st'.pos, res⟩) ∧
    (∀ (g : List (String × PRule)) (input : List Char) (f : Nat) (e : Expr)
       (rmf : Bool) (st : PState) out,
       matchE g input f e rmf st = .ok out → cacheLe st.cache out.2.cache) := by
  refine ⟨?_, ?_, ?_⟩
  · intro g input f name rmf st ce hce
    simp [ruleGo, hce]
  · intro g input f name rmf st res st' hmiss h
    simp only [ruleGo, hmiss] at h
    split at h
    next => exact Except.noConfusion h
    next r hrule =>
      split at h
      next => exact Except.noConfusion h
      next res0 st1 hbody =>
        cases h
        simp [List.lookup]
  · intro g input f
    exact matchE_mono g input f

/-- Witness for C5: a concrete cache hit takes the cache branch. -/
theorem claim5_witness :
    ([("X@0", (⟨3, some (.str "v")⟩ : CEntry))].lookup (ruleKey "X" 0)
       = some (⟨3, some (.str "v")⟩ : CEntry)) ∧
    ruleGo (matchE [] [] 0) [] "X" true ⟨0, [("X@0", ⟨3, some (.str "v")⟩)], 0, []⟩
      = .ok (some (.str "v"), ⟨3, [("X@0", ⟨3, some (.str "v")⟩)], 0, []⟩) :=
  ⟨rfl, claim5_thm.1 [] [] 0 "X" true ⟨0, [("X@0", ⟨3, some (.str "v")⟩)], 0, []⟩
     ⟨3, some (.str "v")⟩ rfl⟩

/-- A successful association-list lookup exhibits a member. -/
theorem lookup_mem {α : Type} {l : List (String × α)} {k : String} {v : α}
    (h : l.lookup k = some v) : (k, v) ∈ l := by
  induction l with
  | nil => exact Option.noConfusion h
  | cons p rest ih =>
    by_cases hk : k = p.1
    · subst hk
      simp [List.lookup] at h
      subst h
      simp
    · have hb : (k == p.1) = false := by simpa using hk
      simp [List.lookup, hb] at h
      exact List.mem_cons_of_mem _ (ih h)

/-- A successful lookup means the key occurs among the keys. -/
theorem lookup_isSome_mem {α : Type} {l : List (String × α)} {k : String}
    (h : (l.lookup k).isSome) : k ∈ l.map Prod.fst := by
  cases hl : l.lookup k with
  | none => rw [hl] at h; exact Bool.noConfusion h
  | some v => exact List.mem_map.mpr ⟨(k, v), lookup_mem hl, rfl⟩

/-- Under distinct keys, membership determines the lookup. -/
theorem mem_lookup_nodup {α : Type} {l : List (String × α)} {k : String} {v : α}
    (hnd : (l.map Prod.fst).Nodup) (h : (k, v) ∈ l) : l.lookup k = some v := by
  induction l with
  | nil => exact absurd h (List.not_mem_nil _)
  | cons p rest ih =>
    rcases List.mem_cons.mp h with rfl | hmem
    · simp [List.lookup]
    · rw [List.map_cons, List.nodup_cons] at hnd
      have hk : k ≠ p.1 := by
        intro hkp
        exact hnd.1 (hkp ▸ List.mem_map.mpr ⟨(k, v), hmem, rfl⟩)
      have hb : (k == p.1) = false := by simpa using hk
      simp [List.lookup, hb]
      exact ih hnd.2 hmem

/-- Lookup through `replaceRuleRefs` applied to every rule. -/
theorem lookup_replaceRules (a b k : String) (rules : List (String × PRule)) :
    (replaceRules a b rules).lookup k = (rules.lookup k).map (replaceRule a b) := by
  induction rules with
  | nil => rfl
  | cons p rest ih =>
    rw [show replaceRules a b (p :: rest)
          = (p.1, replaceRule a b p.2) :: replaceRules a b rest from rfl]
    cases hbk : (k == p.1) <;> simp [List.lookup, hbk, ih]

/-- `replaceRuleRefs` keeps the key list. -/
theorem keys_replaceRules (a b : String) (rules : List (String × PRule)) :
    (replaceRules a b rules).map Prod.fst = rules.map Prod.fst := by
  induction rules with
  | nil => rfl
  | cons p rest ih =>
    rw [show replaceRules a b (p :: rest)
          = (p.1, replaceRule a b p.2) :: replaceRules a b rest from rfl]
    rw [List.map_cons, List.map_cons, ih]

/-- Deleting one key leaves lookups of other keys unchanged. -/
theorem lookup_filterKey_ne {α : Type} {k n : String} (h : k ≠ n)
    (l : List (String × α)) :
    (l.filter (fun p => p.1 != n)).lookup k = l.lookup k := by
  induction l with
  | nil => rfl
  | cons p rest ih =>
    by_cases hp : p.1 = n
    · have hkp : (k == p.1) = false := by simp [hp, h]
      rw [List.filter_cons, if_neg (by simp [hp])]
      rw [ih, List.lookup, hkp]
    · rw [List.filter_cons, if_pos (by simp [hp])]
      cases hbk : (k == p.1) <;> simp [List.lookup, hbk, ih]

/-- Deleting a key removes all its bindings. -/
theorem lookup_filterKey_self {α : Type} (n : String) (l : List (String × α)) :
    (l.filter (fun p => p.1 != n)).lookup n = none := by
  induction l with
  | nil => rfl
  | cons p rest ih =>
    by_cases hp : p.1 = n
    · rw [List.filter_cons, if_neg (by simp [hp])]
      exact ih
    · have hb : (n == p.1) = false := by simpa using Ne.symm hp
      rw [List.filter_cons, if_pos (by simp [hp])]
      simp [List.lookup, hb, ih]

/-- `replaceRuleRefs` maps a `rule_ref` name through the renaming and
keeps every other node kind. -/
theorem exprRefName_replaceE (a b : String) (e : Expr) :
    exprRefName (replaceE a b e) = (exprRefName e).map (subst a b) := by
  cases e <;> simp [replaceE, exprRefName, subst]

/-- The node kind witnessed by `exprRefName`. -/
theorem exprRefName_some {e : Expr} {q : String} (h : exprRefName e = some q) :
    e = .rule_ref q := by
  cases e <;> simp [exprRefName] at h
  subst h
  rfl

/-- `replaceRuleRefs` preserves proxy-ness of a rule. -/
theorem isProxyR_replaceRule (a b : String) (r : PRule) :
    isProxyR (replaceRule a b r) = isProxyR r := by
  simp only [isProxyR, replaceRule, exprRefName_replaceE]
  cases exprRefName r.expression <;> rfl

/-- Membership in the reference list of an expression list. -/
theorem mem_refsL {m : String} : ∀ {l : List Expr}, m ∈ refsL l ↔ ∃ e ∈ l, m ∈ refsE e := by
  intro l
  induction l with
  | nil => simp [refsL]
  | cons e rest ih =>
    rw [show refsL (e :: rest) = refsE e ++ refsL rest from rfl]
    simp [List.mem_append, ih]

/-- The references of a renamed expression are the renamed references
(joint statement for expressions and expression lists, by strong
induction on size). -/
theorem refs_replace (a b : String) :
    ∀ n : Nat,
      (∀ e : Expr, sizeOf e ≤ n → refsE (replaceE a b e) = (refsE e).map (subst a b)) ∧
      (∀ l : List Expr, sizeOf l ≤ n → refsL (replaceL a b l) = (refsL l).map (subst a b)) := by
  intro n
  induction n using Nat.strong_induction_on with
  | _ n ih =>
    constructor
    · intro e he
      cases e with
      | choice alts =>
        have hs : sizeOf alts < n := by
          have := (show sizeOf (Expr.choice alts) = 1 + sizeOf alts by simp) ▸ he
          omega
        rw [show replaceE a b (.choice alts) = .choice (replaceL a b alts) from rfl]
        rw [show refsE (Expr.choice (replaceL a b alts)) = refsL (replaceL a b alts) from rfl]
        rw [show refsE (Expr.choice alts) = refsL alts from rfl]
        exact (ih (sizeOf alts) hs).2 alts (Nat.le_refl _)
      | sequence els =>
        have hs : sizeOf els < n := by
          have := (show sizeOf (Expr.sequence els) = 1 + sizeOf els by simp) ▸ he
          omega
        rw [show replaceE a b (.sequence els) = .sequence (replaceL a b els) from rfl]
        rw [show refsE (Expr.sequence (replaceL a b els)) = refsL (replaceL a b els) from rfl]
        rw [show refsE (Expr.sequence els) = refsL els from rfl]
        exact (ih (sizeOf els) hs).2 els (Nat.le_refl _)
      | labeled lab e1 =>
        have hs : sizeOf e1 < n := by
          have := (show sizeOf (Expr.labeled lab e1) = 1 + sizeOf lab + sizeOf e1 by simp) ▸ he
          omega
        rw [show replaceE a b (.labeled lab e1) = .labeled lab (replaceE a b e1) from rfl]
        rw [show refsE (Expr.labeled lab (replaceE a b e1)) = refsE (replaceE a b e1) from rfl]
        rw [show refsE (Expr.labeled lab e1) = refsE e1 from rfl]
        exact (ih (sizeOf e1) hs).1 e1 (Nat.le_refl _)
      | simple_and e1 =>
        have hs : sizeOf e1 < n := by
          have := (show sizeOf (Expr.simple_and e1) = 1 + sizeOf e1 by simp) ▸ he
          omega
        exact (ih (sizeOf e1) hs).1 e1 (Nat.le_refl _)
      | simple_not e1 =>
        have hs : sizeOf e1 < n := by
          have := (show sizeOf (Expr.simple_not e1) = 1 + sizeOf e1 by simp) ▸ he
          omega
        exact (ih (sizeOf e1) hs).1 e1 (Nat.le_refl _)
      | semantic_and c => rfl
      | semantic_not c => rfl
      | optional e1 =>
        have hs : sizeOf e1 < n := by
          have := (show sizeOf (Expr.optional e1) = 1 + sizeOf e1 by simp) ▸ he
          omega
        exact (ih (sizeOf e1) hs).1 e1 (Nat.le_refl _)
      | zero_or_more e1 =>
        have hs : sizeOf e1 < n := by
          have := (show sizeOf (Expr.zero_or_more e1) = 1 + sizeOf e1 by simp) ▸ he
          omega
        exact (ih (sizeOf e1) hs).1 e1 (Nat.le_refl _)
      | one_or_more e1 =>
        have hs : sizeOf e1 < n := by
          have := (show sizeOf (Expr.one_or_more e1) = 1 + sizeOf e1 by simp) ▸ he
          omega
        exact (ih (sizeOf e1) hs).1 e1 (Nat.le_refl _)
      | action e1 c =>
        have hs : sizeOf e1 < n := by
          have := (show sizeOf (Expr.action e1 c) = 1 + sizeOf e1 + sizeOf c by simp) ▸ he
          omega
        rw [show replaceE a b (.action e1 c) = .action (replaceE a b e1) c from rfl]
        rw [show refsE (Expr.action (replaceE a b e1) c) = refsE (replaceE a b e1) from rfl]
        rw [show refsE (Expr.action e1 c) = refsE e1 from rfl]
        exact (ih (sizeOf e1) hs).1 e1 (Nat.le_refl _)
      | rule_ref m => simp [replaceE, refsE, subst]
      | literal v => rfl
      | any => rfl
      | charClass i p r => rfl
    · intro l hl
      cases l with
      | nil => rfl
      | cons e es =>
        have hse : sizeOf e < n := by
          have := (show sizeOf (e :: es) = 1 + sizeOf e + sizeOf es by simp) ▸ hl
          omega
        have hses : sizeOf es < n := by
          have := (show sizeOf (e :: es) = 1 + sizeOf e + sizeOf es by simp) ▸ hl
          omega
        rw [show replaceL a b (e :: es) = replaceE a b e :: replaceL a b es from rfl]
        rw [show refsL (replaceE a b e :: replaceL a b es)
              = refsE (replaceE a b e) ++ refsL (replaceL a b es) from rfl]
        rw [show refsL (e :: es) = refsE e ++ refsL es from rfl]
        rw [(ih (sizeOf e) hse).1 e (Nat.le_refl _),
            (ih (sizeOf es) hses).2 es (Nat.le_refl _),
            List.map_append]

/-- The references of a renamed expression, membership form. -/
theorem mem_refsE_replaceE {a b m : String} {e : Expr}
    (h : m ∈ refsE (replaceE a b e)) : ∃ m0 ∈ refsE e, m = subst a b m0 := by
  rw [(refs_replace a b (sizeOf e)).1 e (Nat.le_refl _)] at h
  rcases List.mem_map.mp h with ⟨m0, hm0, rfl⟩
  exact ⟨m0, hm0, rfl⟩

/-- A unit-valued `foldlM` over `Except` succeeds only if every element
does (the check visitors iterate this way over rules and sub-nodes). -/
theorem foldlM_ok {β : Type} (k : β → Except CheckErr Unit) :
    ∀ l : List β, l.foldlM (fun _ x => k x) () = .ok () → ∀ x ∈ l, k x = .ok () := by
  intro l
  induction l with
  | nil => intro _ x hx; exact absurd hx (List.not_mem_nil _)
  | cons a rest ih =>
    intro h x hx
    rw [List.foldlM_cons] at h
    cases hka : k a with
    | error e =>
      rw [hka] at h
      exact Except.noConfusion h
    | ok u =>
      cases u
      rw [hka] at h
      have h' : rest.foldlM (fun _ x => k x) () = .ok () := h
      rcases List.mem_cons.mp hx with rfl | hx'
      · exact hka
      · exact ih h' x hx'

/-- If check 1 accepts an expression, every rule reference in it
resolves. -/
theorem c1E_refs (g : List (String × PRule)) :
    ∀ (f : Nat) (e : Expr), c1E g f e = .ok () → ∀ m ∈ refsE e, (g.lookup m).isSome := by
  intro f
  induction f with
  | zero => intro e h m hm; exact Except.noConfusion h
  | succ f ih =>
    intro e h m hm
    cases e with
    | choice alts =>
      rw [show refsE (.choice alts) = refsL alts from rfl] at hm
      obtain ⟨e', he', hm'⟩ := mem_refsL.mp hm
      exact ih e' (foldlM_ok (c1E g f) alts (by simpa [c1E] using h) e' he') m hm'
    | sequence els =>
      rw [show refsE (.sequence els) = refsL els from rfl] at hm
      obtain ⟨e', he', hm'⟩ := mem_refsL.mp hm
      exact ih e' (foldlM_ok (c1E g f) els (by simpa [c1E] using h) e' he') m hm'
    | labeled lab e1 => exact ih e1 (by simpa [c1E] using h) m hm
    | simple_and e1 => exact ih e1 (by simpa [c1E] using h) m hm
    | simple_not e1 => exact ih e1 (by simpa [c1E] using h) m hm
    | semantic_and c => simp [refsE] at hm
    | semantic_not c => simp [refsE] at hm
    | optional e1 => exact ih e1 (by simpa [c1E] using h) m hm
    | zero_or_more e1 => exact ih e1 (by simpa [c1E] using h) m hm
    | one_or_more e1 => exact ih e1 (by simpa [c1E] using h) m hm
    | action e1 c => exact ih e1 (by simpa [c1E] using h) m hm
    | rule_ref n =>
      have hmn : m = n := by simpa [refsE] using hm
      subst hmn
      simp only [c1E] at h
      split at h
      next hs => exact hs
      next => exact Except.noConfusion h
    | literal v => simp [refsE] at hm
    | any => simp [refsE] at hm
    | charClass i p r => simp [refsE] at hm

/-- Check 1 passing means every rule reference in the grammar resolves. -/
theorem check1_refsOk (G : PGrammar) (h : ∃ f, check1 G f = .ok ()) : RefsOk G := by
  obtain ⟨f, hf⟩ := h
  have hf' : G.rules.foldlM (fun _ p => c1E G.rules f p.2.expression) () = .ok () := hf
  intro p hp m hm
  exact c1E_refs G.rules f p.2.expression
    (foldlM_ok (fun p => c1E G.rules f p.2.expression) G.rules hf' p hp) m hm

/-- Entering any rule on a proxy cycle can never return cleanly from the
left-recursion check: the stack keeps growing with names from the cycle
until one repeats (or the fuel runs out — also not a clean return). -/
theorem c2_cycle_err (G : PGrammar)
    (hnm : ∀ k r, G.rules.lookup k = some r → r.name = k) :
    ∀ (f : Nat) (n : String) (applied : List String) (r : PRule),
      Relation.TransGen (proxyTo G) n n →
      G.rules.lookup n = some r → n ∈ applied →
      c2E G.rules f r.expression applied ≠ .ok () := by
  intro f
  induction f using Nat.strong_induction_on with
  | _ f ihf =>
    match f with
    | 0 => intro n applied r _ _ _ h; exact Except.noConfusion h
    | f + 1 =>
      intro n applied r hcyc hlook hmem h
      obtain ⟨m, hedge, hrest⟩ := Relation.TransGen.head'_iff.mp hcyc
      obtain ⟨r', hlook', hexpr'⟩ := hedge
      rw [hlook] at hlook'
      injection hlook' with hrr
      subst hrr
      rw [hexpr'] at h
      simp only [c2E] at h
      by_cases hc : applied.contains m = true
      · rw [if_pos hc] at h
        exact Except.noConfusion h
      · rw [if_neg hc] at h
        have hmn : m ≠ n := by
          intro hmeq
          subst hmeq
          exact hc (contains_eq_true_of_mem hmem)
        have hcyc' : Relation.TransGen (proxyTo G) m m := by
          rcases Relation.ReflTransGen.cases_head hrest with heq | ⟨c, hmc, hcn⟩
          · exact absurd heq hmn
          · exact Relation.TransGen.tail'
              (Relation.ReflTransGen.head hmc hcn) ⟨r, hlook, hexpr'⟩
        obtain ⟨m2, hedge2, _⟩ := Relation.TransGen.head'_iff.mp hcyc'
        obtain ⟨r2, hlookm, hexprm⟩ := hedge2
        rw [hlookm] at h
        have hname2 : r2.name = m := hnm m r2 hlookm
        exact ihf f (Nat.lt_succ_self f) m (applied ++ [r2.name]) r2 hcyc' hlookm
          (by rw [hname2]; exact List.mem_append.mpr (Or.inr (List.mem_singleton.mpr rfl))) h

/-- Check 2 passing rules out proxy cycles (self-proxies included). -/
theorem check2_acyclic (G : PGrammar) (hg : NamesMatch G)
    (h : ∃ f, check2 G f = .ok ()) : ProxyAcyclic G := by
  intro n hcyc
  obtain ⟨f, hf⟩ := h
  obtain ⟨m, hedge, _⟩ := Relation.TransGen.head'_iff.mp hcyc
  obtain ⟨r, hlook, _⟩ := hedge
  have hmem : (n, r) ∈ G.rules := lookup_mem hlook
  have hf' : G.rules.foldlM (fun _ p => c2E G.rules f p.2.expression [p.2.name]) () = .ok () := hf
  have hok := foldlM_ok (fun p => c2E G.rules f p.2.expression [p.2.name]) G.rules hf' (n, r) hmem
  have hname : r.name = n := hg (n, r) hmem
  have hnm : ∀ k r', G.rules.lookup k = some r' → r'.name = k :=
    fun k r' hk => hg _ (lookup_mem hk)
  exact c2_cycle_err G hnm f n [r.name] r hcyc hlook
    (by rw [hname]; exact List.mem_singleton.mpr rfl) hok

/-- `passStep` on a missing key does nothing. -/
theorem passStep_missing {G : PGrammar} {n : String}
    (h : G.rules.lookup n = none) : passStep G n = G := by
  simp [passStep, h]

/-- `passStep` on a non-proxy rule does nothing. -/
theorem passStep_nonproxy {G : PGrammar} {n : String} {r : PRule}
    (h : G.rules.lookup n = some r) (he : exprRefName r.expression = none) :
    passStep G n = G := by
  simp [passStep, h, he]

/-- `passStep` on a proxy `n → q`: rename `r.name ↦ q` everywhere,
update the start rule when it was `n`, delete the key `n`. -/
theorem passStep_proxy {G : PGrammar} {n : String} {r : PRule} {q : String}
    (h : G.rules.lookup n = some r) (he : r.expression = .rule_ref q) :
    passStep G n
      = ⟨(replaceRules r.name q G.rules).filter (fun p => p.1 != n),
         if n = G.startRule then q else G.startRule, G.initCode⟩ := by
  have href : exprRefName r.expression = some q := by rw [he]; rfl
  simp only [passStep, h, href, lookup_replaceRules, Option.map_some']
  rw [show (replaceRule r.name q r).expression = replaceE r.name q r.expression from rfl,
      he]
  simp [replaceE, exprRefName]

/-- One elimination step preserves the loop invariant. -/
theorem passStep_inv {G : PGrammar} (n : String) (hI : InvG G) : InvG (passStep G n) := by
  obtain ⟨hnd, hnm, hso, hro, hac⟩ := hI
  cases hlook : G.rules.lookup n with
  | none => rw [passStep_missing hlook]; exact ⟨hnd, hnm, hso, hro, hac⟩
  | some r =>
    cases href : exprRefName r.expression with
    | none => rw [passStep_nonproxy hlook href]; exact ⟨hnd, hnm, hso, hro, hac⟩
    | some q =>
      have he : r.expression = .rule_ref q := exprRefName_some href
      have hname : r.name = n := hnm (n, r) (lookup_mem hlook)
      have hqkeys : (G.rules.lookup q).isSome :=
        hro (n, r) (lookup_mem hlook) q (by rw [he]; simp [refsE])
      have hqn : q ≠ n := by
        intro hqe
        exact hac n (Relation.TransGen.single ⟨r, hlook, by rw [he, hqe]⟩)
      rw [passStep_proxy hlook he]
      have hlookG' : ∀ k, k ≠ n →
          ((replaceRules r.name q G.rules).filter (fun p => p.1 != n)).lookup k
            = (G.rules.lookup k).map (replaceRule r.name q) := by
        intro k hk
        rw [lookup_filterKey_ne hk, lookup_replaceRules]
      refine ⟨?_, ?_, ?_, ?_, ?_⟩
      · -- NodupKeys
        have hsub : List.Sublist
            (((replaceRules r.name q G.rules).filter (fun p => p.1 != n)).map Prod.fst)
            ((replaceRules r.name q G.rules).map Prod.fst) :=
          (List.filter_sublist _).map _
        rw [keys_replaceRules] at hsub
        exact List.Nodup.sublist hsub hnd
      · -- NamesMatch
        intro p hp
        have hp1 : p ∈ replaceRules r.name q G.rules := (List.mem_filter.mp hp).1
        obtain ⟨p0, hp0, rfl⟩ := List.mem_map.mp hp1
        exact hnm p0 hp0
      · -- StartOk
        by_cases hstart : n = G.startRule
        · rw [show (if n = G.startRule then q else G.startRule) = q from if_pos hstart]
          show (((replaceRules r.name q G.rules).filter (fun p => p.1 != n)).lookup q).isSome
          rw [hlookG' q hqn]
          cases hq0 : G.rules.lookup q with
          | none => rw [hq0] at hqkeys; exact Bool.noConfusion hqkeys
          | some _ => rfl
        · rw [show (if n = G.startRule then q else G.startRule) = G.startRule from if_neg hstart]
          show (((replaceRules r.name q G.rules).filter (fun p => p.1 != n)).lookup G.startRule).isSome
          rw [hlookG' G.startRule (fun hh => hstart hh.symm)]
          have hso' : (G.rules.lookup G.startRule).isSome = true := hso
          cases hq0 : G.rules.lookup G.startRule with
          | none => rw [hq0] at hso'; exact Bool.noConfusion hso'
          | some _ => rfl
      · -- RefsOk
        intro p hp m hm
        have hp1 : p ∈ replaceRules r.name q G.rules := (List.mem_filter.mp hp).1
        obtain ⟨p0, hp0, rfl⟩ := List.mem_map.mp hp1
        obtain ⟨m0, hm0, rfl⟩ := mem_refsE_replaceE (e := p0.2.expression) hm
        have hm0keys : (G.rules.lookup m0).isSome := hro p0 hp0 m0 hm0
        by_cases hcase : m0 = r.name
        · rw [show subst r.name q m0 = q from by simp [subst, hcase]]
          rw [hlookG' q hqn]
          cases hq0 : G.rules.lookup q with
          | none => rw [hq0] at hqkeys; exact Bool.noConfusion hqkeys
          | some _ => rfl
        · rw [show subst r.name q m0 = m0 from by simp [subst, hcase]]
          have hm0n : m0 ≠ n := by rw [← hname]; exact hcase
          rw [hlookG' m0 hm0n]
          cases hq0 : G.rules.lookup m0 with
          | none => rw [hq0] at hm0keys; exact Bool.noConfusion hm0keys
          | some _ => rfl
      · -- ProxyAcyclic
        intro x hx
        have hsub : ∀ u w,
            proxyTo ⟨(replaceRules r.name q G.rules).filter (fun p => p.1 != n),
                     if n = G.startRule then q else G.startRule, G.initCode⟩ u w →
            Relation.TransGen (proxyTo G) u w := by
          rintro u w ⟨r', hlu, her'⟩
          have hun : u ≠ n := by
            intro hue
            subst hue
            rw [show (PGrammar.mk ((replaceRules r.name q G.rules).filter (fun p => p.1 != u))
                  (if u = G.startRule then q else G.startRule) G.initCode).rules
                = (replaceRules r.name q G.rules).filter (fun p => p.1 != u) from rfl,
              lookup_filterKey_self] at hlu
            exact Option.noConfusion hlu
          rw [show (PGrammar.mk ((replaceRules r.name q G.rules).filter (fun p => p.1 != n))
                (if n = G.startRule then q else G.startRule) G.initCode).rules
              = (replaceRules r.name q G.rules).filter (fun p => p.1 != n) from rfl,
            hlookG' u hun] at hlu
          cases hlu0 : G.rules.lookup u with
          | none => rw [hlu0] at hlu; exact Option.noConfusion hlu
          | some rk =>
            rw [hlu0] at hlu
            injection hlu with hh
            subst hh
            have hw : exprRefName (replaceE r.name q rk.expression) = some w := by
              rw [show replaceE r.name q rk.expression = (replaceRule r.name q rk).expression from rfl,
                her']
              rfl
            rw [exprRefName_replaceE] at hw
            cases hrk : exprRefName rk.expression with
            | none => rw [hrk] at hw; exact Option.noConfusion hw
            | some w0 =>
              rw [hrk] at hw
              injection hw with hw'
              have hw0 : rk.expression = .rule_ref w0 := exprRefName_some hrk
              have hedge1 : proxyTo G u w0 := ⟨rk, hlu0, hw0⟩
              by_cases hcase : w0 = r.name
              · have hw0n : w0 = n := by rw [hcase, hname]
                have hwq : w = q := by rw [← hw', hcase]; simp [subst]
                subst hwq
                exact Relation.TransGen.head (hw0n ▸ hedge1)
                  (Relation.TransGen.single ⟨r, hlook, he⟩)
              · have hww0 : w = w0 := by rw [← hw']; simp [subst, hcase]
                subst hww0
                exact Relation.TransGen.single hedge1
        have h2 := Relation.TransGen.mono hsub hx
        rw [Relation.transGen_idem] at h2
        exact hac x h2

/-- One elimination step removes the processed name from the pending
proxy set. -/
theorem passStep_proxiesIn {G : PGrammar} {n : String} {rest : List String}
    (h : ProxiesIn G (n :: rest)) : ProxiesIn (passStep G n) rest := by
  cases hlook : G.rules.lookup n with
  | none =>
    rw [passStep_missing hlook]
    intro k rk hk hp
    rcases List.mem_cons.mp (h k rk hk hp) with rfl | hr
    · rw [hlook] at hk; exact Option.noConfusion hk
    · exact hr
  | some r =>
    cases href : exprRefName r.expression with
    | none =>
      rw [passStep_nonproxy hlook href]
      intro k rk hk hp
      rcases List.mem_cons.mp (h k rk hk hp) with rfl | hr
      · rw [hlook] at hk
        injection hk with hh
        subst hh
        simp [isProxyR, href] at hp
      · exact hr
    | some q =>
      have he := exprRefName_some href
      rw [passStep_proxy hlook he]
      intro k rk hk hp
      have hkn : k ≠ n := by
        intro hke
        subst hke
        rw [show (PGrammar.mk ((replaceRules r.name q G.rules).filter (fun p => p.1 != k))
              (if k = G.startRule then q else G.startRule) G.initCode).rules
            = (replaceRules r.name q G.rules).filter (fun p => p.1 != k) from rfl,
          lookup_filterKey_self] at hk
        exact Option.noConfusion hk
      rw [show (PGrammar.mk ((replaceRules r.name q G.rules).filter (fun p => p.1 != n))
            (if n = G.startRule then q else G.startRule) G.initCode).rules
          = (replaceRules r.name q G.rules).filter (fun p => p.1 != n) from rfl,
        lookup_filterKey_ne hkn, lookup_replaceRules] at hk
      cases hl0 : G.rules.lookup k with
      | none => rw [hl0] at hk; exact Option.noConfusion hk
      | some rk0 =>
        rw [hl0] at hk
        injection hk with hh
        subst hh
        rw [isProxyR_replaceRule] at hp
        rcases List.mem_cons.mp (h k rk0 hl0 hp) with rfl | hr
        · exact absurd rfl hkn
        · exact hr

/-- The whole pass preserves the loop invariant. -/
theorem runPass_inv (ord : List String) :
    ∀ G : PGrammar, InvG G → InvG (runPass G ord) := by
  induction ord with
  | nil => intro G h; exact h
  | cons n rest ih =>
    intro G h
    rw [show runPass G (n :: rest) = runPass (passStep G n) rest from rfl]
    exact ih _ (passStep_inv n h)

/-- After processing every pending name, no proxies remain (in lookup
form). -/
theorem runPass_proxiesIn (ord : List String) :
    ∀ G : PGrammar, ProxiesIn G ord → ProxiesIn (runPass G ord) [] := by
  induction ord with
  | nil => intro G h; exact h
  | cons n rest ih =>
    intro G h
    rw [show runPass G (n :: rest) = runPass (passStep G n) rest from rfl]
    exact ih _ (passStep_proxiesIn h)

/-- Claim C2: for every well-formed AGT that completes the semantic
analyzer (check 1, check 2, then the proxy-elimination pass processed in
*any* iteration order over the rule-map keys), every `rule_ref` name
occurring anywhere in the grammar is a key of `grammar.rules`, the start
rule is a key of `grammar.rules`, and no rule's expression is itself a
`rule_ref` — including when the start rule heads a chain of proxy
rules. -/
theorem claim2_thm (G : PGrammar) (ord : List String)
    (hwf : WfG G) (hcp : ChecksPass G) (hperm : ord.Perm (G.rules.map Prod.fst)) :
    RefsOk (runPass G ord) ∧ StartOk (runPass G ord) ∧ NoProxies (runPass G ord) := by
  obtain ⟨hnd, hnm, hso⟩ := hwf
  have hro : RefsOk G := check1_refsOk G hcp.1
  have hac : ProxyAcyclic G := check2_acyclic G hnm hcp.2
  have hinv : InvG (runPass G ord) := runPass_inv ord G ⟨hnd, hnm, hso, hro, hac⟩
  have hpi : ProxiesIn G ord := by
    intro k r hk _
    exact hperm.mem_iff.mpr (lookup_isSome_mem (by simp [hk]))
  have hpi' := runPass_proxiesIn ord G hpi
  refine ⟨hinv.2.2.2.1, hinv.2.2.1, ?_⟩
  intro p hp
  cases hb : isProxyR p.2 with
  | false => rfl
  | true =>
    have hlk : (runPass G ord).rules.lookup p.1 = some p.2 :=
      mem_lookup_nodup hinv.1 hp
    exact absurd (hpi' p.1 p.2 hlk hb) (List.not_mem_nil _)

/-- Witness for C2 at the proxy grammar `s = x; x = "a"` processed in
declaration order. -/
theorem claim2_witness :
    WfG gProxy ∧ ChecksPass gProxy ∧
    (RefsOk (runPass gProxy ["s", "x"]) ∧ StartOk (runPass gProxy ["s", "x"]) ∧
     NoProxies (runPass gProxy ["s", "x"])) :=
  ⟨⟨(by decide : (gProxy.rules.map Prod.fst).Nodup),
    (by decide : ∀ p ∈ gProxy.rules, p.2.name = p.1),
    (by decide : ((gProxy.rules.lookup gProxy.startRule).isSome : Prop))⟩,
   ⟨⟨10, rfl⟩, ⟨10, rfl⟩⟩,
   claim2_thm gProxy ["s", "x"]
     ⟨(by decide : (gProxy.rules.map Prod.fst).Nodup),
      (by decide : ∀ p ∈ gProxy.rules, p.2.name = p.1),
      (by decide : ((gProxy.rules.lookup gProxy.startRule).isSome : Prop))⟩
     ⟨⟨10, rfl⟩, ⟨10, rfl⟩⟩
     (by decide : (["s", "x"] : List String).Perm (gProxy.rules.map Prod.fst))⟩

/-- Claim C4: once every key has been processed, running the
proxy-elimination pass again (with any iteration order) changes nothing:
after one complete pass no rule is a proxy, and the loop body does
nothing on non-proxy rules. -/
theorem claim4_thm (G : PGrammar) (ord1 ord2 : List String)
    (_hcp : ChecksPass G) (hcover : ∀ k ∈ G.rules.map Prod.fst, k ∈ ord1) :
    runPass (runPass G ord1) ord2 = runPass G ord1 := by
  have hpi : ProxiesIn G ord1 :=
    fun k r hk _ => hcover k (lookup_isSome_mem (by simp [hk]))
  have hnp := runPass_proxiesIn ord1 G hpi
  clear hcover hpi
  have hfix : ∀ (o2 : List String) (H : PGrammar), ProxiesIn H [] → runPass H o2 = H := by
    intro o2
    induction o2 with
    | nil => intro H _; rfl
    | cons m rest ih =>
      intro H hH
      have hstep : passStep H m = H := by
        cases hl : H.rules.lookup m with
        | none => exact passStep_missing hl
        | some r =>
          cases hr : exprRefName r.expression with
          | none => exact passStep_nonproxy hl hr
          | some q =>
            exact absurd (hH m r hl (by simp [isProxyR, hr])) (List.not_mem_nil _)
      rw [show runPass H (m :: rest) = runPass (passStep H m) rest from rfl, hstep]
      exact ih H hH
  exact hfix ord2 _ hnp

/-- Claim C9 counterexample: the grammar text `a=` (a rule whose body
matches zero `Labeled` elements) is accepted by the meta-grammar parser,
and the resulting AGT *contains* a sequence node whose elements list is
empty — so not every sequence node in a meta-grammar-produced AGT has a
non-empty elements list. -/
theorem claim9_counterexample :
    parseInput metaG 40 "a=".toList = .ok (.success mgOutAeq) ∧
    emptySeqIn 10 mgOutAeq = true :=
  ⟨rfl, rfl⟩

/-- Claim C9, amended: `parse_sequence` collapses a sequence to its sole
element only when exactly one `Labeled` element was matched; with zero
elements it still emits a sequence node, whose elements list is then
empty.  For the grammar text `a=` the meta-grammar parser succeeds and
the expression of rule `a` in the resulting AGT is exactly
`(sequence, elements: [])`. -/
theorem claim9_thm :
    parseInput metaG 40 "a=".toList = .ok (.success mgOutAeq) ∧
    (vField mgOutAeq "rules" >>= fun rs => vField rs "a" >>= fun r => vField r "expression")
      = .ok (.obj [("type", .str "sequence"), ("elements", .list [])]) :=
  ⟨rfl, rfl⟩

/-- Witness for C4 at the proxy grammar, second run over the surviving
key. -/
theorem claim4_witness :
    ChecksPass gProxy ∧ (∀ k ∈ gProxy.rules.map Prod.fst, k ∈ (["s", "x"] : List String)) ∧
    runPass (runPass gProxy ["s", "x"]) ["x"] = runPass gProxy ["s", "x"] :=
  ⟨⟨⟨10, rfl⟩, ⟨10, rfl⟩⟩,
   (by decide : ∀ k ∈ gProxy.rules.map Prod.fst, k ∈ (["s", "x"] : List String)),
   claim4_thm gProxy ["s", "x"] ["x"] ⟨⟨10, rfl⟩, ⟨10, rfl⟩⟩
     (by decide : ∀ k ∈ gProxy.rules.map Prod.fst, k ∈ (["s", "x"] : List String))⟩

end Peg
